import Mathlib

/-!
# Verification of the staged take-profit executor and data-consistency checker

Shallow embedding of `src/services/partialTakeProfitExecutor.ts` and
`src/scheduler/dataConsistencyCheck.ts` from the `ai-auto-trading` repository,
together with theorems settling the specification claims about them.

Time is modelled in integer milliseconds, prices and sizes as rationals.
Each SQL statement issued by the code is one atomic step of the model.
-/

namespace AutoTrading

/-! ## Distributed lock (`DistributedLock` in partialTakeProfitExecutor.ts)

The lock lives in the `system_config` table: one row per key, holding
`value` (the holder id) and `updated_at` (a timestamp).  `tryAcquire`
issues, in order: a DELETE of the expired row, a SELECT, then either an
UPDATE (refresh), or a conditional INSERT followed by a verifying SELECT.
Here the whole call is modelled as one unit of work on the single row for
its key, as the claim under test phrases it. -/

/-- One `system_config` row used as a lock: `value` is the holder id,
`updatedAt` the `updated_at` timestamp in milliseconds. -/
structure LockRow where
  value : String
  updatedAt : Int
  deriving Repr, DecidableEq

/-- `LOCK_TIMEOUT_MS = 30000` in `DistributedLock`. -/
def LOCK_TIMEOUT_MS : Int := 30000

/-- Step 1 of `tryAcquire`: delete the row for the key when its age is at
least the timeout (the SQL uses `>=` on seconds; modelled in ms). -/
def deleteExpired (row : Option LockRow) (now : Int) : Option LockRow :=
  match row with
  | none => none
  | some r => if now - r.updatedAt ≥ LOCK_TIMEOUT_MS then none else some r

/-- `DistributedLock.tryAcquire(key, holder)` evaluated as one unit of work
against the single `system_config` row for `key`: returns the new row state
and the boolean grant result. -/
def tryAcquire (row : Option LockRow) (holder : String) (now : Int) :
    Option LockRow × Bool :=
  -- 1. clean up the expired lock
  let row := deleteExpired row now
  -- 2. re-entrant refresh or busy
  match row with
  | some r =>
      if r.value = holder then (some { value := holder, updatedAt := now }, true)
      else (some r, false)
  | none =>
      -- 3. conditional insert (no row exists at this point in the unit of work)
      let row := some { value := holder, updatedAt := now }
      -- 4. verify: the stored value equals the caller
      match row with
      | some r => (row, r.value = holder)
      | none => (row, false)

/-- `DistributedLock.release(key, holder)`: delete the row only when the
current holder matches the caller. -/
def releaseLock (row : Option LockRow) (holder : String) : Option LockRow :=
  match row with
  | some r => if r.value = holder then none else some r
  | none => none

/-! ## Periodic consistency-check scheduler (`DataConsistencyChecker`)

`start()` checks the `isRunning` flag, runs one pass immediately, installs
the interval timer and sets the flag.  The interval callback calls
`runCheck()` unconditionally; `runCheck` itself has no re-entrancy guard,
so the model lets the number of simultaneously active passes grow. -/

/-- Observable scheduler state: the `isRunning` flag, whether the interval
timer is installed, and how many `runCheck` passes are currently active
(started and not yet finished). -/
structure CheckerState where
  isRunning : Bool
  timerSet : Bool
  active : Nat
  deriving Repr, DecidableEq

/-- Initial checker state: constructed, not started. -/
def CheckerState.init : CheckerState :=
  { isRunning := false, timerSet := false, active := 0 }

/-- Events observable at the scheduler boundary: a `start()` call, an
interval tick firing, a `stop()` call, and an active pass finishing. -/
inductive CheckerEvent
  | start
  | tick
  | stop
  | finish
  deriving Repr, DecidableEq

/-- One scheduler step.  `start` is a no-op when `isRunning` is already set;
otherwise it launches a pass at once, installs the timer and sets the flag.
A `tick` is only possible while the timer is installed and launches a pass
unconditionally — `runCheck` has no in-progress check.  `finish` retires one
active pass.  `none` marks an event that cannot occur in that state. -/
def checkerStep (s : CheckerState) (e : CheckerEvent) : Option CheckerState :=
  match e with
  | .start =>
      if s.isRunning then some s
      else some { isRunning := true, timerSet := true, active := s.active + 1 }
  | .tick =>
      if s.timerSet then some { s with active := s.active + 1 } else none
  | .stop => some { s with isRunning := false, timerSet := false }
  | .finish =>
      match s.active with
      | 0 => none
      | n + 1 => some { s with active := n }

/-- Run a sequence of scheduler events from a state. -/
def checkerRun (s : CheckerState) : List CheckerEvent → Option CheckerState
  | [] => some s
  | e :: es =>
      match checkerStep s e with
      | some s' => checkerRun s' es
      | none => none

/-! ## Consistency checker data model (`dataConsistencyCheck.ts`)

Local state: the `positions` table (symbol, side, quantity) and the
`price_orders` table (order_id, symbol, side, type, status).  Remote state:
the exchange's position list (contract, size), read-only.  The exchange
client's `normalizeContract` is an injected function. -/

/-- A row of the local `positions` table, as read by the checker. -/
structure Pos where
  symbol : String
  side : String
  quantity : ℚ
  deriving Repr, DecidableEq

/-- A row of the local `price_orders` table. -/
structure PriceOrder where
  orderId : String
  symbol : String
  side : String
  ptype : String
  status : String
  deriving Repr, DecidableEq

/-- The local database state touched by the checker and the repair step. -/
structure LocalState where
  positions : List Pos
  priceOrders : List PriceOrder
  deriving Repr, DecidableEq

/-- One remote (exchange) position as returned by `getPositions()`. -/
structure RemotePos where
  contract : String
  size : ℚ
  deriving Repr, DecidableEq

/-- Boolean infix test on character lists, the model of JavaScript
`String.prototype.includes`. -/
def charsInclude (pat : List Char) : List Char → Bool
  | [] => pat.isEmpty
  | c :: cs => pat.isPrefixOf (c :: cs) || charsInclude pat cs

/-- `symbol.includes(pat)` from the test-data check. -/
def strIncludes (s pat : String) : Bool :=
  charsInclude pat.toList s.toList

/-- The test-data check of `checkConsistency`:
`symbol.includes('_TEST') || symbol.includes('test') || symbol.includes('TEST')`. -/
def isTestDataSymbol (symbol : String) : Bool :=
  strIncludes symbol "_TEST" || strIncludes symbol "test" || strIncludes symbol "TEST"

/-- Epsilon used by the size comparison and the negligible-size filter. -/
def SIZE_EPS : ℚ := 1 / 10000

/-- An entry of `result.orphanPositions`. -/
structure OrphanPos where
  symbol : String
  side : String
  dbSize : ℚ
  exchangeSize : ℚ
  deriving Repr, DecidableEq

/-- An entry of `result.missingPositions`. -/
structure MissingPos where
  contract : String
  size : ℚ
  deriving Repr, DecidableEq

/-- The `InconsistentData` record produced by `checkConsistency`. -/
structure InconsistentData where
  orphanPositions : List OrphanPos
  orphanPriceOrders : List PriceOrder
  testDataPositions : List (String × String)
  missingPositions : List MissingPos
  deriving Repr, DecidableEq

/-- The remote size looked up for a local position: the first remote entry
whose contract equals the normalized symbol, absolute size, else 0. -/
def exchangeSizeFor (normalize : String → String) (remote : List RemotePos)
    (symbol : String) : ℚ :=
  match remote.find? (fun p => p.contract = normalize symbol) with
  | some p => |p.size|
  | none => 0

/-- Classification loop 3 of `checkConsistency`, for one local position row:
`none` when consistent, test-data classification first, else orphan when the
exchange size is zero or differs from the local quantity by more than
`0.0001`. -/
inductive PosClass
  | testData
  | orphan (dbSize exchangeSize : ℚ)
  deriving Repr, DecidableEq

/-- Classify one local position row against the remote snapshot. -/
def classifyPos (normalize : String → String) (remote : List RemotePos)
    (p : Pos) : Option PosClass :=
  let dbQty := |p.quantity|
  let exchangeSize := exchangeSizeFor normalize remote p.symbol
  if isTestDataSymbol p.symbol then some .testData
  else if exchangeSize = 0 ∨ SIZE_EPS < |exchangeSize - dbQty| then
    some (.orphan dbQty exchangeSize)
  else none

/-- `checkConsistency`: classify local positions, find remote positions
missing locally, and find orphan active conditional orders. -/
def checkConsistency (normalize : String → String) (remote : List RemotePos)
    (s : LocalState) : InconsistentData :=
  let orphans := s.positions.filterMap (fun p =>
    match classifyPos normalize remote p with
    | some (.orphan dbSize exchangeSize) =>
        some { symbol := p.symbol, side := p.side, dbSize, exchangeSize : OrphanPos }
    | _ => none)
  let testData := s.positions.filterMap (fun p =>
    match classifyPos normalize remote p with
    | some .testData => some (p.symbol, p.side)
    | _ => none)
  let missing := remote.filterMap (fun rp =>
    if |rp.size| < SIZE_EPS then none
    else if s.positions.any (fun p => normalize p.symbol = rp.contract) then none
    else some { contract := rp.contract, size := |rp.size| : MissingPos })
  let orphanOrders := s.priceOrders.filter (fun o =>
    o.status = "active" &&
      !(s.positions.any (fun p => p.symbol = o.symbol && p.side = o.side)))
  { orphanPositions := orphans
    orphanPriceOrders := orphanOrders
    testDataPositions := testData
    missingPositions := missing }

/-- `hasInconsistencies`. -/
def hasInconsistencies (d : InconsistentData) : Bool :=
  !d.orphanPositions.isEmpty || !d.orphanPriceOrders.isEmpty ||
    !d.testDataPositions.isEmpty || !d.missingPositions.isEmpty

/-! ### Repair step (`fixInconsistencies`)

Each repair action mutates the local state and may attempt remote
cancellations; the model returns the new local state together with the list
of order ids for which a remote cancellation was attempted (the remote
outcome is ignored by the code: failures are logged and non-fatal). -/

/-- `removePosition(symbol, side)`: `DELETE FROM positions WHERE symbol = ?
AND side = ?`. -/
def removePosition (symbol side : String) (s : LocalState) : LocalState :=
  { s with positions :=
      s.positions.filter (fun p => !(p.symbol = symbol && p.side = side)) }

/-- `updatePriceOrderStatus(orderId, 'cancelled')`. -/
def setOrderCancelled (orderId : String) (s : LocalState) : LocalState :=
  { s with priceOrders := s.priceOrders.map (fun o =>
      if o.orderId = orderId then { o with status := "cancelled" } else o) }

/-- `cancelRelatedPriceOrders(symbol, side)`: query the currently active
orders for the pair, attempt a remote cancel for each, then mark each
cancelled locally.  Returns the state and the attempted cancellations. -/
def cancelRelatedPriceOrders (symbol side : String) (s : LocalState) :
    LocalState × List String :=
  let ids := (s.priceOrders.filter (fun o =>
    o.symbol = symbol && o.side = side && o.status = "active")).map (·.orderId)
  (ids.foldl (fun st oid => setOrderCancelled oid st) s, ids)

/-- Repair of one `orphanPositions` entry: delete and cancel related orders
when the exchange size is exactly zero, otherwise warn only. -/
def fixOrphanPos (o : OrphanPos) (s : LocalState) : LocalState × List String :=
  if o.exchangeSize = 0 then
    let s1 := removePosition o.symbol o.side s
    cancelRelatedPriceOrders o.symbol o.side s1
  else (s, [])

/-- Repair of one `testDataPositions` entry: delete and cancel related
orders, independent of remote state. -/
def fixTestData (t : String × String) (s : LocalState) : LocalState × List String :=
  let s1 := removePosition t.1 t.2 s
  cancelRelatedPriceOrders t.1 t.2 s1

/-- Thread a per-item repair over a list, accumulating attempted remote
cancellations in order. -/
def foldRepair {α : Type} (f : α → LocalState → LocalState × List String) :
    List α → LocalState → LocalState × List String
  | [], s => (s, [])
  | x :: xs, s =>
      let r := f x s
      let rest := foldRepair f xs r.1
      (rest.1, r.2 ++ rest.2)

/-- `fixInconsistencies(data)`: orphan positions first, then orphan
conditional orders (remote cancel attempted unconditionally, then local
status update), then test data, then missing positions (warnings only, no
mutation). -/
def fixInconsistencies (data : InconsistentData) (s : LocalState) :
    LocalState × List String :=
  let r1 := foldRepair fixOrphanPos data.orphanPositions s
  let r2 := foldRepair
    (fun (o : PriceOrder) st => (setOrderCancelled o.orderId st, [o.orderId]))
    data.orphanPriceOrders r1.1
  let r3 := foldRepair fixTestData data.testDataPositions r2.1
  (r3.1, r1.2 ++ r2.2 ++ r3.2)

/-! ## Staged take-profit pass (`PartialTakeProfitExecutor.executeCheck`)

The pass iterates over the non-zero-quantity rows of `positions`.  Its
external dependencies (exchange ticker, volatility analysis, history
queries, the injected stage executor) are modelled as oracle functions; a
dependency that can raise is `Except Unit`-valued.  Calls whose exceptions
the code catches locally keep their catch behavior in the model; calls
whose exceptions propagate to the outer catch abort the pass. -/

/-- Position side, `'long' | 'short'`. -/
inductive Side
  | long
  | short
  deriving Repr, DecidableEq

/-- The string stored in the `side` column and used in the lock key. -/
def Side.str : Side → String
  | .long => "long"
  | .short => "short"

/-- Modelled from the spec: `calculateRMultiple` from
`tools/trading/takeProfitManagement` (not under `src/`) — the multiple of
the initial risk distance achieved by the current price, signed in the
direction of profit for the given side. -/
def calculateRMultiple (entry current stopLoss : ℚ) (side : Side) : ℚ :=
  match side with
  | .long => (current - entry) / (entry - stopLoss)
  | .short => (entry - current) / (stopLoss - entry)

/-- Modelled from the spec: the stage-1 trigger price recorded by the stage
executor (`partialTakeProfitTool`, not under `src/`) — stage 1 fires at one
risk-multiple of profit, so the trigger is `entry + 1R` for a long and
`entry - 1R` for a short, where `R` is the distance from entry to the
original stop-loss. -/
def stage1TriggerPrice (entry stopLoss : ℚ) (side : Side) : ℚ :=
  match side with
  | .long => entry + (entry - stopLoss)
  | .short => entry - (stopLoss - entry)

/-- The recovery formula in `executeCheck` (line 253):
`originalStopLoss = 2 * entryPrice - triggerPrice`. -/
def recoverOriginalStopLoss (entry triggerPrice : ℚ) : ℚ :=
  2 * entry - triggerPrice

/-- A row of the `positions` query in `executeCheck`. -/
structure PosRow where
  symbol : String
  side : Side
  entryPrice : ℚ
  stopLoss : ℚ
  quantity : ℚ
  deriving Repr, DecidableEq

/-- The first completed `partial_take_profit_history` row for a symbol,
in ascending stage order: its `stage` and `trigger_price`. -/
structure Stage1Hist where
  stage : Nat
  triggerPrice : ℚ
  deriving Repr, DecidableEq

/-- Dependency oracle for one `executeCheck` pass.  `Except Unit`-valued
oracles model calls that may raise.  `hasRecent` and `lockFail` model
`hasRecentExecution` and a store failure inside `tryAcquire` — both catch
internally and surface only a boolean. -/
structure ExecEnv where
  positionsQ : Except Unit (List PosRow)
  configOk : Bool
  price : String → Except Unit ℚ
  stage1History : String → Except Unit (Option Stage1Hist)
  thresholds : String → Except Unit (ℚ × ℚ)
  hasRecent : String → Nat → Bool
  lockFail : String → Bool
  stageCompleted : String → Nat → Except Unit Bool
  execute : String → Nat → Except Unit Bool

/-- Lock table state during a pass: association of lock key to holder. -/
def Locks := List (String × String)

/-- Current holder of a key, if any. -/
def lockHeldBy (L : Locks) (k : String) : Option String :=
  ((List.find? (fun e => e.1 = k)) L).map (·.2)

/-- In-pass view of `tryAcquire`: grant when the key is free (insert) or
already held by the caller (re-entrant refresh); refuse otherwise.  Lock
expiry cannot occur within a pass in this model. -/
def lockTry (L : Locks) (k caller : String) : Locks × Bool :=
  match lockHeldBy L k with
  | none => ((k, caller) :: L, true)
  | some h => if h = caller then (L, true) else (L, false)

/-- In-pass view of `release`: delete the row only when held by the caller. -/
def lockRelease (L : Locks) (k caller : String) : Locks :=
  if lockHeldBy L k = some caller then
    List.filter (fun e => !(e.1 = k : Bool)) L
  else L

/-- One entry of the `details` array of the pass result. -/
structure Detail where
  symbol : String
  stage : Nat
  result : String
  deriving Repr, DecidableEq

/-- Accumulated pass state: counters, emitted details, lock table. -/
structure PassAcc where
  executedCount : Nat
  skippedCount : Nat
  details : List Detail
  locks : Locks

/-- Control flow after one stage block: fall through to the next stage,
`continue` to the next position, or abort the pass (uncaught exception). -/
inductive StageFlow
  | next
  | skipPos
  | abort
  deriving Repr, DecidableEq

/-- The lock key `partial_tp_<symbol>_<side>_stage<n>`. -/
def lockKeyFor (symbol : String) (side : Side) (stage : Nat) : String :=
  "partial_tp_" ++ symbol ++ "_" ++ side.str ++ "_stage" ++ toString stage

/-- Strip the first occurrence of a pattern from a character list
(JavaScript `String.prototype.replace` with a string pattern). -/
def replaceFirst (pat : List Char) : List Char → List Char
  | [] => []
  | c :: cs =>
      if pat.isPrefixOf (c :: cs) then (c :: cs).drop pat.length
      else c :: replaceFirst pat cs

/-- `symbol.replace('_USDT', '').replace('USDT', '')` — the symbol handed
to the stage executor. -/
def stripUSDT (symbol : String) : String :=
  String.mk (replaceFirst "USDT".toList (replaceFirst "_USDT".toList symbol.toList))

/-- One stage block of `executeCheck` (stage 1 and stage 2 are textually
identical in the source up to the stage number): recent-completion guard,
lock acquisition, in-lease idempotency recheck, executor invocation, and
the `finally` that releases the lock on every exit path. -/
def runStage (env : ExecEnv) (caller symbol : String) (side : Side)
    (stage : Nat) (acc : PassAcc) : PassAcc × StageFlow :=
  let lockKey := lockKeyFor symbol side stage
  if env.hasRecent symbol stage then
    ({ acc with skippedCount := acc.skippedCount + 1
                details := acc.details ++ [⟨symbol, stage, "recently_executed"⟩] },
     .skipPos)
  else if env.lockFail lockKey then
    ({ acc with skippedCount := acc.skippedCount + 1
                details := acc.details ++ [⟨symbol, stage, "lock_busy"⟩] },
     .skipPos)
  else
    match lockTry acc.locks lockKey caller with
    | (_, false) =>
        ({ acc with skippedCount := acc.skippedCount + 1
                    details := acc.details ++ [⟨symbol, stage, "lock_busy"⟩] },
         .skipPos)
    | (L1, true) =>
        -- inside the try, with the finally release applied on each exit
        match env.stageCompleted symbol stage with
        | .error _ =>
            ({ acc with locks := lockRelease L1 lockKey caller }, .abort)
        | .ok true =>
            ({ acc with skippedCount := acc.skippedCount + 1
                        details := acc.details ++ [⟨symbol, stage, "already_executed"⟩]
                        locks := lockRelease L1 lockKey caller },
             .next)
        | .ok false =>
            match env.execute (stripUSDT symbol) stage with
            | .error _ =>
                ({ acc with locks := lockRelease L1 lockKey caller }, .abort)
            | .ok true =>
                ({ acc with executedCount := acc.executedCount + 1
                            details := acc.details ++ [⟨symbol, stage, "success"⟩]
                            locks := lockRelease L1 lockKey caller },
                 .next)
            | .ok false =>
                ({ acc with details := acc.details ++ [⟨symbol, stage, "failed"⟩]
                            locks := lockRelease L1 lockKey caller },
                 .next)

/-- The stop-loss used for the R-multiple: recovered from the first
completed stage-1 history row when present (a failed history query falls
back to the stored stop-loss). -/
def originalStopLossFor (env : ExecEnv) (p : PosRow) : ℚ :=
  match env.stage1History p.symbol with
  | .error _ => p.stopLoss
  | .ok none => p.stopLoss
  | .ok (some h) =>
      if h.stage = 1 ∧ 0 < h.triggerPrice then
        recoverOriginalStopLoss p.entryPrice h.triggerPrice
      else p.stopLoss

/-- The stage-2 block of one position's evaluation (runs after the stage-1
block fell through, or directly when stage 1 did not trigger). -/
def runStage2Part (env : ExecEnv) (caller : String) (p : PosRow)
    (currentR adjustedR2 : ℚ) (a : PassAcc) : PassAcc × Bool :=
  if adjustedR2 ≤ currentR then
    match runStage env caller p.symbol p.side 2 a with
    | (a2, .abort) => (a2, true)
    | (a2, _) => (a2, false)
  else (a, false)

/-- Evaluation of one position row: skip rows without a usable stop-loss or
price; recover the original stop-loss from stage-1 history; compute the
R-multiple; fetch volatility-adjusted thresholds (an exception here is
uncaught); then run the stage-1 and stage-2 blocks.  Returns the updated
accumulator and `true` when the pass must abort. -/
def runPosition (env : ExecEnv) (caller : String) (p : PosRow)
    (acc : PassAcc) : PassAcc × Bool :=
  if p.stopLoss ≤ 0 then (acc, false)
  else
    match env.price p.symbol with
    | .error _ => (acc, false)
    | .ok currentPrice =>
      if currentPrice ≤ 0 then (acc, false)
      else
        if |p.entryPrice - originalStopLossFor env p| = 0 then (acc, false)
        else
          let currentR :=
            calculateRMultiple p.entryPrice currentPrice
              (originalStopLossFor env p) p.side
          match env.thresholds p.symbol with
          | .error _ => (acc, true)
          | .ok (adjustedR1, adjustedR2) =>
            if adjustedR1 ≤ currentR then
              match runStage env caller p.symbol p.side 1 acc with
              | (a1, .abort) => (a1, true)
              | (a1, .skipPos) => (a1, false)
              | (a1, .next) => runStage2Part env caller p currentR adjustedR2 a1
            else runStage2Part env caller p currentR adjustedR2 acc

/-- The position loop: stop at the first aborting position. -/
def runPositions (env : ExecEnv) (caller : String) :
    List PosRow → PassAcc → PassAcc × Bool
  | [], acc => (acc, false)
  | p :: ps, acc =>
      match runPosition env caller p acc with
      | (acc1, true) => (acc1, true)
      | (acc1, false) => runPositions env caller ps acc1

/-- The result record of `executeCheck`. -/
structure CheckResult where
  success : Bool
  executed : Nat
  skipped : Nat
  details : List Detail
  deriving Repr, DecidableEq

/-- `PartialTakeProfitExecutor.executeCheck(caller)`, given the dependency
oracle and the initial lock table.  The outer catch turns any uncaught
exception into a `success = false` result carrying the counters and details
accumulated so far.  Returns the result record and the final lock table. -/
def executeCheck (env : ExecEnv) (caller : String) (L0 : Locks) :
    CheckResult × Locks :=
  match env.positionsQ with
  | .error _ => ({ success := false, executed := 0, skipped := 0, details := [] }, L0)
  | .ok [] => ({ success := true, executed := 0, skipped := 0, details := [] }, L0)
  | .ok ps =>
      if env.configOk then
        let acc0 : PassAcc :=
          { executedCount := 0, skippedCount := 0, details := [], locks := L0 }
        match runPositions env caller ps acc0 with
        | (acc, aborted) =>
            ({ success := !aborted, executed := acc.executedCount,
               skipped := acc.skippedCount, details := acc.details }, acc.locks)
      else
        ({ success := false, executed := 0, skipped := 0, details := [] }, L0)

/-! ## Interleaved execution of the per-stage protocol

For the at-most-once claim the per-stage protocol (guard → lease →
idempotency recheck → invoke → record → release) is modelled as a small-step
system: several callers, each running the protocol once for the same
symbol+side+stage, interleave their atomic store operations at
nondecreasing wall-clock times.  The lease steps reuse `tryAcquire` and
`releaseLock` above; the history is the list of timestamps of `completed`
entries for the contended symbol+stage. -/

/-- Program counter of one caller inside the per-stage protocol. -/
inductive PC
  | idle
  | armed
  | locked
  | toInvoke
  | executing (ok : Bool)
  | toRelease
  | done
  deriving Repr, DecidableEq

/-- Atomic protocol events: recent-completion guard, lease acquisition,
in-lease history recheck, executor invocation (with the executor's eventual
result), the executor's history write on return, and lease release. -/
inductive Ev
  | guard (c : String) (t : Int)
  | acquire (c : String) (t : Int)
  | check (c : String) (t : Int)
  | invoke (c : String) (t : Int) (ok : Bool)
  | record (c : String) (t : Int)
  | release (c : String) (t : Int)
  deriving Repr, DecidableEq

/-- Global state of the interleaved system: the lease row for the
contended key, the completed-history timestamps for the symbol+stage, each
caller's program counter, the last event time, and invocation counters.
`invokesWhileAbsent` counts executor invocations made while no completed
history entry existed. -/
structure TraceCfg where
  lock : Option LockRow
  hist : List Int
  pcs : String → PC
  lastTime : Int
  invokes : Nat
  invokesWhileAbsent : Nat

/-- Pointwise program-counter update. -/
def updPc (f : String → PC) (c : String) (pc : PC) : String → PC :=
  fun x => if x = c then pc else f x

/-- `hasRecentExecution` at time `t`: a completed entry with timestamp
strictly inside the trailing 30-second window. -/
def recentCompleted (hist : List Int) (t : Int) : Bool :=
  hist.any (fun ts => t - 30000 < ts)

/-- One atomic step.  Each event requires its caller to be at the matching
program point and time to be nondecreasing; `none` marks an impossible
event. -/
def stepEv (cfg : TraceCfg) (ev : Ev) : Option TraceCfg :=
  match ev with
  | .guard c t =>
      if cfg.lastTime ≤ t ∧ cfg.pcs c = .idle then
        if recentCompleted cfg.hist t then
          some { cfg with pcs := updPc cfg.pcs c .done, lastTime := t }
        else
          some { cfg with pcs := updPc cfg.pcs c .armed, lastTime := t }
      else none
  | .acquire c t =>
      if cfg.lastTime ≤ t ∧ cfg.pcs c = .armed then
        let r := tryAcquire cfg.lock c t
        some { cfg with lock := r.1,
                        pcs := updPc cfg.pcs c (if r.2 then .locked else .done),
                        lastTime := t }
      else none
  | .check c t =>
      if cfg.lastTime ≤ t ∧ cfg.pcs c = .locked then
        if cfg.hist.isEmpty then
          some { cfg with pcs := updPc cfg.pcs c .toInvoke, lastTime := t }
        else
          some { cfg with pcs := updPc cfg.pcs c .toRelease, lastTime := t }
      else none
  | .invoke c t ok =>
      if cfg.lastTime ≤ t ∧ cfg.pcs c = .toInvoke then
        some { cfg with pcs := updPc cfg.pcs c (.executing ok),
                        invokes := cfg.invokes + 1,
                        invokesWhileAbsent :=
                          cfg.invokesWhileAbsent + (if cfg.hist.isEmpty then 1 else 0),
                        lastTime := t }
      else none
  | .record c t =>
      if cfg.lastTime ≤ t then
        match cfg.pcs c with
        | .executing ok =>
            some { cfg with hist := if ok then cfg.hist ++ [t] else cfg.hist,
                            pcs := updPc cfg.pcs c .toRelease, lastTime := t }
        | _ => none
      else none
  | .release c t =>
      if cfg.lastTime ≤ t ∧ cfg.pcs c = .toRelease then
        some { cfg with lock := releaseLock cfg.lock c,
                        pcs := updPc cfg.pcs c .done, lastTime := t }
      else none

/-- Run a list of events from a configuration. -/
def runTrace (cfg : TraceCfg) : List Ev → Option TraceCfg
  | [] => some cfg
  | ev :: evs =>
      match stepEv cfg ev with
      | some cfg1 => runTrace cfg1 evs
      | none => none

/-- Initial configuration: lease free, history empty, all callers idle. -/
def initCfg : TraceCfg :=
  { lock := none, hist := [], pcs := fun _ => .idle, lastTime := 0,
    invokes := 0, invokesWhileAbsent := 0 }

/-- An acquisition that reclaims another caller's lease row (possible only
through the expiry deletion inside `tryAcquire`). -/
def stealAt (cfg : TraceCfg) (ev : Ev) : Bool :=
  match ev with
  | .acquire c t =>
      match cfg.lock with
      | some r => !(r.value = c : Bool) && (tryAcquire cfg.lock c t).2
      | none => false
  | _ => false

/-- No step of the trace reclaims a foreign lease row by expiry. -/
def noSteal (cfg : TraceCfg) : List Ev → Bool
  | [] => true
  | ev :: evs =>
      !stealAt cfg ev &&
        (match stepEv cfg ev with
         | some cfg1 => noSteal cfg1 evs
         | none => true)

/-- Every executor invocation in the trace eventually succeeds. -/
def recordsAllOk (tr : List Ev) : Bool :=
  tr.all (fun ev =>
    match ev with
    | .invoke _ _ ok => ok
    | _ => true)

/-! ## Theorems -/

/-- C2: `tryAcquire(key, holder)` as one unit of work: an expired row is
deleted first, making the lease acquirable by any holder; a live row owned
by the caller is refreshed to `now` with `true`; a live row of a different
holder is left unchanged with `false`; with no row, the conditional insert
runs and `true` is returned exactly when the subsequent read shows the
stored value equals the holder — which in a single unit of work it does. -/
theorem tryAcquire_unit_of_work (row : Option LockRow) (holder : String) (now : Int) :
    (∀ r, row = some r → now - r.updatedAt ≥ LOCK_TIMEOUT_MS →
        tryAcquire row holder now = (some ⟨holder, now⟩, true)) ∧
    (∀ r, row = some r → now - r.updatedAt < LOCK_TIMEOUT_MS → r.value = holder →
        tryAcquire row holder now = (some ⟨holder, now⟩, true)) ∧
    (∀ r, row = some r → now - r.updatedAt < LOCK_TIMEOUT_MS → r.value ≠ holder →
        tryAcquire row holder now = (some r, false)) ∧
    (row = none → tryAcquire row holder now = (some ⟨holder, now⟩, true)) := by
  refine ⟨?_, ?_, ?_, ?_⟩
  · rintro r rfl hexp
    simp [tryAcquire, deleteExpired, if_pos hexp]
  · rintro r rfl hlive hown
    simp [tryAcquire, deleteExpired, not_le.mpr hlive, hown]
  · rintro r rfl hlive hother
    simp [tryAcquire, deleteExpired, not_le.mpr hlive, hother]
  · rintro rfl
    simp [tryAcquire, deleteExpired]

/-- C2 witness: a lease last refreshed at time 0 is expired at time 40000
and is acquired by a different holder `B` even though holder `A` never
released it. -/
theorem tryAcquire_unit_of_work_witness :
    ((40000 : Int) - (0 : Int) ≥ LOCK_TIMEOUT_MS) ∧
      tryAcquire (some ⟨"A", 0⟩) "B" 40000 = (some ⟨"B", 40000⟩, true) :=
  ⟨by decide, (tryAcquire_unit_of_work (some ⟨"A", 0⟩) "B" 40000).1 ⟨"A", 0⟩ rfl (by decide)⟩

/-- C4 counterexample: the claim — every reachable scheduler state has at
most one active pass — fails on the trace `start()` then a tick with the
first pass still unfinished: the tick starts a second, parallel pass. -/
theorem checker_overlap_counterexample :
    ¬ (∀ (tr : List CheckerEvent) (s : CheckerState),
        checkerRun CheckerState.init tr = some s → s.active ≤ 1) := by
  intro h
  have h2 := h [.start, .tick]
    { isRunning := true, timerSet := true, active := 2 } (by decide)
  exact absurd h2 (by decide)

/-- C4 amended: the `isRunning` flag guards only `start()` — a second
`start()` while running changes nothing — while an interval tick always
begins a pass, so a tick firing during an active pass yields overlapping
passes. -/
theorem checker_flag_guards_start_only (s : CheckerState) :
    (s.isRunning = true → checkerStep s .start = some s) ∧
    (s.timerSet = true →
      checkerStep s .tick = some { s with active := s.active + 1 }) := by
  constructor
  · intro h; simp [checkerStep, h]
  · intro h; simp [checkerStep, h]

/-- C4 amended witness: concrete running state with one active pass — a
repeated `start()` is a no-op and a tick makes the active count 2. -/
theorem checker_flag_guards_start_only_witness :
    ((true : Bool) = true ∧
      checkerStep { isRunning := true, timerSet := true, active := 1 } .start
        = some { isRunning := true, timerSet := true, active := 1 }) ∧
    checkerStep { isRunning := true, timerSet := true, active := 1 } .tick
      = some { isRunning := true, timerSet := true, active := 2 } :=
  ⟨⟨rfl, (checker_flag_guards_start_only
      { isRunning := true, timerSet := true, active := 1 }).1 rfl⟩,
    (checker_flag_guards_start_only
      { isRunning := true, timerSet := true, active := 1 }).2 rfl⟩

/-- C6: the coordinator's recovery `2 * entry - triggerPrice` inverts the
stage-1 trigger price for both sides, so the R-multiple computed from the
recovered stop-loss equals the R-multiple computed from the original
stop-loss that stage 1 overwrote. -/
theorem progress_metric_stable (entry stopLoss current : ℚ) (side : Side) :
    recoverOriginalStopLoss entry (stage1TriggerPrice entry stopLoss side) = stopLoss ∧
    calculateRMultiple entry current
        (recoverOriginalStopLoss entry (stage1TriggerPrice entry stopLoss side)) side
      = calculateRMultiple entry current stopLoss side := by
  have h : recoverOriginalStopLoss entry (stage1TriggerPrice entry stopLoss side)
      = stopLoss := by
    cases side <;> simp [recoverOriginalStopLoss, stage1TriggerPrice] <;> ring
  exact ⟨h, by rw [h]⟩

set_option maxRecDepth 4000 in
/-- C7 counterexample: the claim's example — local `ETH short 2.0` against
remote size `1.999` is not flagged — is false: the difference is `0.001`,
which exceeds the `0.0001` epsilon, so the position is classified as an
orphan local position. -/
theorem classify_epsilon_counterexample :
    classifyPos id [{ contract := "ETH", size := (1999 : ℚ)/1000 }]
        { symbol := "ETH", side := "short", quantity := 2 }
      = some (.orphan 2 ((1999 : ℚ)/1000)) :=
  of_decide_eq_true (by with_unfolding_all rfl)

/-- C7 amended: a local position matching the test-data pattern is
classified test data regardless of remote state; otherwise it is an orphan
exactly when the remote size is zero or differs from the local quantity by
more than `0.0001`; a nonzero remote size within `0.0001` of the local
quantity (e.g. `2.0` vs `1.99995`) is not flagged.  (`2.0` vs `1.999`
differs by `0.001` and is flagged.) -/
theorem classify_position_spec (normalize : String → String)
    (remote : List RemotePos) (p : Pos) :
    (isTestDataSymbol p.symbol = true →
        classifyPos normalize remote p = some .testData) ∧
    (isTestDataSymbol p.symbol = false →
        (classifyPos normalize remote p
            = some (.orphan (abs p.quantity) (exchangeSizeFor normalize remote p.symbol))
          ↔ exchangeSizeFor normalize remote p.symbol = 0 ∨
              SIZE_EPS < abs (exchangeSizeFor normalize remote p.symbol - abs p.quantity))) ∧
    (isTestDataSymbol p.symbol = false →
        exchangeSizeFor normalize remote p.symbol ≠ 0 →
        abs (exchangeSizeFor normalize remote p.symbol - abs p.quantity) ≤ SIZE_EPS →
        classifyPos normalize remote p = none) := by
  refine ⟨?_, ?_, ?_⟩
  · intro h; simp [classifyPos, h]
  · intro h
    constructor
    · intro he
      by_contra hc
      push_neg at hc
      simp [classifyPos, h, not_or.mpr ⟨hc.1, not_lt.mpr hc.2⟩] at he
    · intro he
      simp [classifyPos, h, he]
  · intro h h0 heps
    simp [classifyPos, h, not_or.mpr ⟨h0, not_lt.mpr heps⟩]

/-- C7 amended witness: `ETH` is not test data; remote `1.99995` against
local `2` is within epsilon and not flagged. -/
theorem classify_position_spec_witness :
    isTestDataSymbol "ETH" = false ∧
    exchangeSizeFor id [{ contract := "ETH", size := (199995 : ℚ)/100000 }] "ETH" ≠ 0 ∧
    abs (exchangeSizeFor id
          [{ contract := "ETH", size := (199995 : ℚ)/100000 }] "ETH" - abs (2 : ℚ))
        ≤ SIZE_EPS ∧
    classifyPos id [{ contract := "ETH", size := (199995 : ℚ)/100000 }]
        { symbol := "ETH", side := "short", quantity := 2 }
      = none :=
  ⟨by decide,
    of_decide_eq_true (by with_unfolding_all rfl),
    of_decide_eq_true (by with_unfolding_all rfl),
    (classify_position_spec id [{ contract := "ETH", size := (199995 : ℚ)/100000 }]
        { symbol := "ETH", side := "short", quantity := 2 }).2.2
      (by decide)
      (of_decide_eq_true (by with_unfolding_all rfl))
      (of_decide_eq_true (by with_unfolding_all rfl))⟩

/-! ### At-most-once analysis of the interleaved protocol -/

/-- The double-execution trace: caller `A` acquires the lease at time 0 and
passes its in-lease history check, but its executor call stalls; at time
31000 the lease has exceeded its 30-second timeout, so caller `B`'s
`tryAcquire` deletes the expired row and acquires, `B`'s history check still
finds nothing, and both callers then invoke the executor. -/
def doubleExecTrace : List Ev :=
  [.guard "A" 0, .acquire "A" 0, .check "A" 1,
   .guard "B" 31000, .acquire "B" 31000, .check "B" 31001,
   .invoke "B" 31002 true, .invoke "A" 31003 true]

/-- C1 counterexample: it is not the case that every valid interleaving of
the per-stage protocol by distinct callers invokes the stage executor at
most once while no completed history entry exists — the lease-expiry
reclamation inside `tryAcquire` admits a trace with two such invocations. -/
theorem at_most_once_counterexample :
    ¬ (∀ (tr : List Ev) (cfg : TraceCfg), runTrace initCfg tr = some cfg →
        cfg.invokesWhileAbsent ≤ 1) := by
  intro h
  have hval : (runTrace initCfg doubleExecTrace).map (·.invokesWhileAbsent)
      = some 2 := by rfl
  cases hr : runTrace initCfg doubleExecTrace with
  | none => rw [hr] at hval; exact absurd hval (by simp)
  | some cfg =>
      have h2 := h doubleExecTrace cfg hr
      rw [hr] at hval
      have h3 : cfg.invokesWhileAbsent = 2 := by simpa using hval
      omega

/-- A caller is inside the lease-holding part of the protocol. -/
def PC.isCrit : PC → Bool
  | .locked => true
  | .toInvoke => true
  | .executing _ => true
  | .toRelease => true
  | _ => false

/-- A caller has passed the in-lease history check but has not yet written
its own history entry. -/
def PC.isMidExec : PC → Bool
  | .toInvoke => true
  | .executing _ => true
  | _ => false

/-- A caller whose executor call is in flight. -/
def PC.isExec : PC → Bool
  | .executing _ => true
  | _ => false

/-- Inductive invariant of the interleaved protocol under the no-steal and
all-executions-succeed assumptions. -/
structure Inv (cfg : TraceCfg) : Prop where
  critOwns : ∀ c, (cfg.pcs c).isCrit = true → ∃ r, cfg.lock = some r ∧ r.value = c
  histBlocks : cfg.hist ≠ [] → ∀ c, (cfg.pcs c).isMidExec = false
  countExec : (∃ c, (cfg.pcs c).isExec = true) → cfg.invokes = cfg.hist.length + 1
  countNoExec : (∀ c, (cfg.pcs c).isExec = false) → cfg.invokes = cfg.hist.length
  histLen : cfg.hist.length ≤ 1
  execOk : ∀ c b, cfg.pcs c = .executing b → b = true

theorem updPc_self (f : String → PC) (c : String) (pc : PC) :
    updPc f c pc c = pc := by simp [updPc]

theorem updPc_ne (f : String → PC) (c : String) (pc : PC) (x : String)
    (h : ¬ x = c) : updPc f c pc x = f x := by simp [updPc, h]

/-- A granted `tryAcquire` always leaves the caller's own fresh row. -/
theorem tryAcquire_granted_lock (row : Option LockRow) (c : String) (t : Int)
    (h : (tryAcquire row c t).2 = true) :
    (tryAcquire row c t).1 = some ⟨c, t⟩ := by
  cases row with
  | none => rfl
  | some r =>
      by_cases hexp : t - r.updatedAt ≥ LOCK_TIMEOUT_MS
      · simp [tryAcquire, deleteExpired, hexp]
      · by_cases hown : r.value = c
        · simp [tryAcquire, deleteExpired, hexp, hown]
        · simp [tryAcquire, deleteExpired, hexp, hown] at h

/-- A refused `tryAcquire` leaves a live row of a different holder
unchanged. -/
theorem tryAcquire_refused (row : Option LockRow) (c : String) (t : Int)
    (h : (tryAcquire row c t).2 = false) :
    ∃ r, row = some r ∧ tryAcquire row c t = (some r, false) ∧ ¬ r.value = c := by
  cases row with
  | none => simp [tryAcquire, deleteExpired] at h
  | some r =>
      by_cases hexp : t - r.updatedAt ≥ LOCK_TIMEOUT_MS
      · simp [tryAcquire, deleteExpired, hexp] at h
      · by_cases hown : r.value = c
        · simp [tryAcquire, deleteExpired, hexp, hown] at h
        · exact ⟨r, rfl, by simp [tryAcquire, deleteExpired, hexp, hown], hown⟩

/-- The invariant holds in the initial configuration. -/
theorem inv_init : Inv initCfg := by
  refine ⟨?_, ?_, ?_, ?_, ?_, ?_⟩
  · intro c h; simp [initCfg, PC.isCrit] at h
  · intro h; simp [initCfg] at h
  · rintro ⟨c, h⟩; simp [initCfg, PC.isExec] at h
  · intro _; simp [initCfg]
  · simp [initCfg]
  · intro c b h; simp [initCfg] at h

theorem isCrit_of_isMidExec (pc : PC) (h : pc.isMidExec = true) :
    pc.isCrit = true := by
  cases pc <;> simp_all [PC.isMidExec, PC.isCrit]

theorem isCrit_of_isExec (pc : PC) (h : pc.isExec = true) :
    pc.isCrit = true := by
  cases pc <;> simp_all [PC.isExec, PC.isCrit]

theorem isMidExec_of_isExec (pc : PC) (h : pc.isExec = true) :
    pc.isMidExec = true := by
  cases pc <;> simp_all [PC.isExec, PC.isMidExec]

/-- Lease-holding callers are unique: both own the single lease row. -/
theorem crit_unique (cfg : TraceCfg) (hInv : Inv cfg) (x y : String)
    (hx : (cfg.pcs x).isCrit = true) (hy : (cfg.pcs y).isCrit = true) :
    x = y := by
  obtain ⟨r, hr, hvx⟩ := hInv.critOwns x hx
  obtain ⟨r2, hr2, hvy⟩ := hInv.critOwns y hy
  rw [hr] at hr2
  cases hr2
  rw [← hvx, hvy]

/-- Updating one caller to a non-critical program point preserves the
invariant when that caller was not mid-execution. -/
theorem inv_updPc_benign (cfg : TraceCfg) (hInv : Inv cfg) (c : String)
    (pc : PC) (t : Int) (hcrit : pc.isCrit = false)
    (hexecOld : (cfg.pcs c).isExec = false) :
    Inv { cfg with pcs := updPc cfg.pcs c pc, lastTime := t } := by
  refine ⟨?_, ?_, ?_, ?_, hInv.histLen, ?_⟩
  · intro x hx
    by_cases hxc : x = c
    · subst hxc
      simp only [updPc_self] at hx
      exact absurd hx (by simp [hcrit])
    · simp only [updPc_ne _ _ _ _ hxc] at hx
      exact hInv.critOwns x hx
  · intro hh x
    by_cases hxc : x = c
    · subst hxc
      simp only [updPc_self]
      cases hpc : pc <;> simp_all [PC.isCrit, PC.isMidExec]
    · simp only [updPc_ne _ _ _ _ hxc]
      exact hInv.histBlocks hh x
  · rintro ⟨x, hx⟩
    by_cases hxc : x = c
    · subst hxc
      simp only [updPc_self] at hx
      exact absurd (isCrit_of_isExec pc hx) (by simp [hcrit])
    · simp only [updPc_ne _ _ _ _ hxc] at hx
      exact hInv.countExec ⟨x, hx⟩
  · intro hall
    refine hInv.countNoExec (fun x => ?_)
    by_cases hxc : x = c
    · subst hxc; exact hexecOld
    · have h2 := hall x
      simp only [updPc_ne _ _ _ _ hxc] at h2
      exact h2
  · intro x b hx
    by_cases hxc : x = c
    · subst hxc
      simp only [updPc_self] at hx
      subst hx
      exact absurd hcrit (by simp [PC.isCrit])
    · simp only [updPc_ne _ _ _ _ hxc] at hx
      exact hInv.execOk x b hx

/-- One protocol step preserves the invariant, provided the step is not an
expiry steal and any executor invocation it makes succeeds. -/
theorem inv_step (cfg cfg1 : TraceCfg) (ev : Ev) (hInv : Inv cfg)
    (hstep : stepEv cfg ev = some cfg1)
    (hnosteal : stealAt cfg ev = false)
    (hok : ∀ c t b, ev = .invoke c t b → b = true) : Inv cfg1 := by
  cases ev with
  | guard c t =>
      simp only [stepEv] at hstep
      split at hstep
      case isFalse => exact absurd hstep (by simp)
      case isTrue hcond =>
        have hidle : (cfg.pcs c).isExec = false := by
          rw [hcond.2]; rfl
        split at hstep <;> cases hstep <;>
          exact inv_updPc_benign cfg hInv c _ t (by rfl) hidle
  | acquire c t =>
      simp only [stepEv] at hstep
      split at hstep
      case isFalse => exact absurd hstep (by simp)
      case isTrue hcond =>
        have harm : (cfg.pcs c).isExec = false := by rw [hcond.2]; rfl
        cases hgr : (tryAcquire cfg.lock c t).2 with
        | false =>
            obtain ⟨r, hrow, heq, hval⟩ := tryAcquire_refused cfg.lock c t hgr
            rw [heq] at hstep
            simp only [Bool.false_eq_true, if_neg] at hstep
            cases hstep
            have h2 := inv_updPc_benign cfg hInv c .done t (by rfl) harm
            have hlk : (⟨r, hrow, heq, hval⟩ : ∃ r, cfg.lock = some r ∧ _ ∧ _) = _ := rfl
            rw [show ((some r : Option LockRow)) = cfg.lock from hrow.symm]
            exact h2
        | true =>
            have hlk := tryAcquire_granted_lock cfg.lock c t hgr
            rw [hlk] at hstep
            simp only [hgr, if_pos] at hstep
            cases hstep
            refine ⟨?_, ?_, ?_, ?_, hInv.histLen, ?_⟩
            · intro x hx
              by_cases hxc : x = c
              · subst hxc; exact ⟨_, rfl, rfl⟩
              · simp only [updPc_ne _ _ _ _ hxc] at hx
                obtain ⟨r, hr, hv⟩ := hInv.critOwns x hx
                exfalso
                apply hxc
                simp only [stealAt, hr] at hnosteal
                rw [hr] at hgr
                simp [hgr] at hnosteal
                rw [← hv, hnosteal]
            · intro hh x
              by_cases hxc : x = c
              · subst hxc; simp only [updPc_self]; rfl
              · simp only [updPc_ne _ _ _ _ hxc]
                exact hInv.histBlocks hh x
            · rintro ⟨x, hx⟩
              by_cases hxc : x = c
              · subst hxc; simp only [updPc_self] at hx; exact absurd hx (by simp [PC.isExec])
              · simp only [updPc_ne _ _ _ _ hxc] at hx
                exact hInv.countExec ⟨x, hx⟩
            · intro hall
              refine hInv.countNoExec (fun x => ?_)
              by_cases hxc : x = c
              · subst hxc; exact harm
              · have h2 := hall x
                simp only [updPc_ne _ _ _ _ hxc] at h2; exact h2
            · intro x b hx
              by_cases hxc : x = c
              · subst hxc; simp only [updPc_self] at hx; cases hx
              · simp only [updPc_ne _ _ _ _ hxc] at hx
                exact hInv.execOk x b hx
  | check c t =>
      simp only [stepEv] at hstep
      split at hstep
      case isFalse => exact absurd hstep (by simp)
      case isTrue hcond =>
        have hlocked : (cfg.pcs c).isCrit = true := by rw [hcond.2]; rfl
        split at hstep <;> cases hstep <;>
          refine ⟨?_, ?_, ?_, ?_, hInv.histLen, ?_⟩
        -- history empty: caller proceeds to the executor invocation
        · intro x hx
          by_cases hxc : x = c
          · subst hxc; exact hInv.critOwns _ hlocked
          · simp only [updPc_ne _ _ _ _ hxc] at hx
            exact hInv.critOwns x hx
        · intro hh x
          exact absurd (List.isEmpty_iff.mp (by assumption)) hh
        · rintro ⟨x, hx⟩
          by_cases hxc : x = c
          · subst hxc; simp only [updPc_self] at hx; exact absurd hx (by simp [PC.isExec])
          · simp only [updPc_ne _ _ _ _ hxc] at hx
            exact hInv.countExec ⟨x, hx⟩
        · intro hall
          refine hInv.countNoExec (fun x => ?_)
          by_cases hxc : x = c
          · subst hxc; rw [hcond.2]; rfl
          · have h2 := hall x
            simp only [updPc_ne _ _ _ _ hxc] at h2; exact h2
        · intro x b hx
          by_cases hxc : x = c
          · subst hxc; simp only [updPc_self] at hx; cases hx
          · simp only [updPc_ne _ _ _ _ hxc] at hx
            exact hInv.execOk x b hx
        -- history non-empty: caller goes straight to release
        · intro x hx
          by_cases hxc : x = c
          · subst hxc; exact hInv.critOwns _ hlocked
          · simp only [updPc_ne _ _ _ _ hxc] at hx
            exact hInv.critOwns x hx
        · intro hh x
          by_cases hxc : x = c
          · subst hxc; simp only [updPc_self]; rfl
          · simp only [updPc_ne _ _ _ _ hxc]
            exact hInv.histBlocks hh x
        · rintro ⟨x, hx⟩
          by_cases hxc : x = c
          · subst hxc; simp only [updPc_self] at hx; exact absurd hx (by simp [PC.isExec])
          · simp only [updPc_ne _ _ _ _ hxc] at hx
            exact hInv.countExec ⟨x, hx⟩
        · intro hall
          refine hInv.countNoExec (fun x => ?_)
          by_cases hxc : x = c
          · subst hxc; rw [hcond.2]; rfl
          · have h2 := hall x
            simp only [updPc_ne _ _ _ _ hxc] at h2; exact h2
        · intro x b hx
          by_cases hxc : x = c
          · subst hxc; simp only [updPc_self] at hx; cases hx
          · simp only [updPc_ne _ _ _ _ hxc] at hx
            exact hInv.execOk x b hx
  | invoke c t ok =>
      have hokv : ok = true := hok c t ok rfl
      subst hokv
      simp only [stepEv] at hstep
      split at hstep
      case isFalse => exact absurd hstep (by simp)
      case isTrue hcond =>
        cases hstep
        have hmid : (cfg.pcs c).isMidExec = true := by rw [hcond.2]; rfl
        have hcrit : (cfg.pcs c).isCrit = true := isCrit_of_isMidExec _ hmid
        have hhist : cfg.hist = [] := by
          by_contra hne
          have h2 := hInv.histBlocks hne c
          rw [h2] at hmid
          cases hmid
        refine ⟨?_, ?_, ?_, ?_, hInv.histLen, ?_⟩
        · intro x hx
          by_cases hxc : x = c
          · subst hxc; exact hInv.critOwns _ hcrit
          · simp only [updPc_ne _ _ _ _ hxc] at hx
            exact hInv.critOwns x hx
        · intro hh _
          exact absurd hhist hh
        · rintro ⟨x, hx⟩
          have hnone : ∀ y, (cfg.pcs y).isExec = false := by
            intro y
            by_contra hy
            rw [Bool.not_eq_false] at hy
            have hyc := crit_unique cfg hInv y c (isCrit_of_isExec _ hy) hcrit
            subst hyc
            rw [hcond.2] at hy
            cases hy
          have h2 := hInv.countNoExec hnone
          show cfg.invokes + 1 = cfg.hist.length + 1
          omega
        · intro hall
          have h2 := hall c
          simp only [updPc_self] at h2
          cases h2
        · intro x b hx
          by_cases hxc : x = c
          · subst hxc; simp only [updPc_self] at hx; cases hx; rfl
          · simp only [updPc_ne _ _ _ _ hxc] at hx
            exact hInv.execOk x b hx
  | record c t =>
      simp only [stepEv] at hstep
      split at hstep
      case isFalse => exact absurd hstep (by simp)
      case isTrue hcond =>
        split at hstep
        case _ ok heq =>
          cases hstep
          have hokv : ok = true := hInv.execOk c ok heq
          subst hokv
          have hmid : (cfg.pcs c).isMidExec = true := by rw [heq]; rfl
          have hcrit : (cfg.pcs c).isCrit = true := isCrit_of_isMidExec _ hmid
          have hhist : cfg.hist = [] := by
            by_contra hne
            have h2 := hInv.histBlocks hne c
            rw [h2] at hmid
            cases hmid
          have hcnt := hInv.countExec ⟨c, by rw [heq]; rfl⟩
          refine ⟨?_, ?_, ?_, ?_, ?_, ?_⟩
          · intro x hx
            by_cases hxc : x = c
            · subst hxc; exact hInv.critOwns _ hcrit
            · simp only [updPc_ne _ _ _ _ hxc] at hx
              exact hInv.critOwns x hx
          · intro _ x
            by_cases hxc : x = c
            · subst hxc; simp only [updPc_self]; rfl
            · simp only [updPc_ne _ _ _ _ hxc]
              by_contra hx
              rw [Bool.not_eq_false] at hx
              exact hxc (crit_unique cfg hInv x c (isCrit_of_isMidExec _ hx) hcrit)
          · rintro ⟨x, hx⟩
            exfalso
            by_cases hxc : x = c
            · subst hxc; simp only [updPc_self] at hx; cases hx
            · simp only [updPc_ne _ _ _ _ hxc] at hx
              exact hxc (crit_unique cfg hInv x c (isCrit_of_isExec _ hx) hcrit)
          · intro _
            simp only [if_pos, hhist, List.nil_append, List.length_cons,
              List.length_nil]
            rw [hhist] at hcnt
            simpa using hcnt
          · simp [hhist]
          · intro x b hx
            by_cases hxc : x = c
            · subst hxc; simp only [updPc_self] at hx; cases hx
            · simp only [updPc_ne _ _ _ _ hxc] at hx
              exact hInv.execOk x b hx
        case _ =>
          exact absurd hstep (by simp)
  | release c t =>
      simp only [stepEv] at hstep
      split at hstep
      case isFalse => exact absurd hstep (by simp)
      case isTrue hcond =>
        cases hstep
        have hcrit : (cfg.pcs c).isCrit = true := by rw [hcond.2]; rfl
        refine ⟨?_, ?_, ?_, ?_, hInv.histLen, ?_⟩
        · intro x hx
          exfalso
          by_cases hxc : x = c
          · subst hxc; simp only [updPc_self] at hx; cases hx
          · simp only [updPc_ne _ _ _ _ hxc] at hx
            exact hxc (crit_unique cfg hInv x c hx hcrit)
        · intro hh x
          by_cases hxc : x = c
          · subst hxc; simp only [updPc_self]; rfl
          · simp only [updPc_ne _ _ _ _ hxc]
            exact hInv.histBlocks hh x
        · rintro ⟨x, hx⟩
          by_cases hxc : x = c
          · subst hxc; simp only [updPc_self] at hx; cases hx
          · simp only [updPc_ne _ _ _ _ hxc] at hx
            exact hInv.countExec ⟨x, hx⟩
        · intro hall
          refine hInv.countNoExec (fun x => ?_)
          by_cases hxc : x = c
          · subst hxc; rw [hcond.2]; rfl
          · have h2 := hall x
            simp only [updPc_ne _ _ _ _ hxc] at h2; exact h2
        · intro x b hx
          by_cases hxc : x = c
          · subst hxc; simp only [updPc_self] at hx; cases hx
          · simp only [updPc_ne _ _ _ _ hxc] at hx
            exact hInv.execOk x b hx

/-- The invariant holds after any valid steal-free, all-successful run. -/
theorem inv_run (tr : List Ev) (cfg0 cfg : TraceCfg) (hInv : Inv cfg0)
    (h : runTrace cfg0 tr = some cfg) (hns : noSteal cfg0 tr = true)
    (hok : recordsAllOk tr = true) : Inv cfg := by
  induction tr generalizing cfg0 with
  | nil =>
      simp only [runTrace] at h
      cases h
      exact hInv
  | cons ev evs ih =>
      simp only [runTrace] at h
      cases hst : stepEv cfg0 ev with
      | none => rw [hst] at h; cases h
      | some cfg1 =>
          rw [hst] at h
          simp only [noSteal, hst, Bool.and_eq_true, Bool.not_eq_eq_eq_not,
            Bool.not_true] at hns
          simp only [recordsAllOk, List.all_cons, Bool.and_eq_true] at hok
          refine ih cfg1 (inv_step cfg0 cfg1 ev hInv hst hns.1 ?_) h hns.2 hok.2
          rintro c t b rfl
          exact hok.1

/-- C1 amended: in every valid interleaving of the per-stage protocol in
which no acquisition reclaims another caller's lease row by expiry (no
critical section outlives the 30-second lease timeout) and every executor
invocation succeeds (writes its completed entry), the stage executor is
invoked at most once in total — so in particular at most once while no
completed history entry exists.  Lease expiry during a critical section, or
a failed invocation, can each lead to a further invocation. -/
theorem at_most_once_no_steal (tr : List Ev) (cfg : TraceCfg)
    (h : runTrace initCfg tr = some cfg) (hns : noSteal initCfg tr = true)
    (hok : recordsAllOk tr = true) : cfg.invokes ≤ 1 := by
  have hInv := inv_run tr initCfg cfg inv_init h hns hok
  by_cases hex : ∃ c, (cfg.pcs c).isExec = true
  · have h1 := hInv.countExec hex
    obtain ⟨c, hc⟩ := hex
    have hhist : cfg.hist = [] := by
      by_contra hne
      have h2 := hInv.histBlocks hne c
      rw [isMidExec_of_isExec _ hc] at h2
      cases h2
    rw [hhist] at h1
    simp at h1
    omega
  · push_neg at hex
    have h1 := hInv.countNoExec (fun c => by simpa using hex c)
    have h2 := hInv.histLen
    omega

/-- A benign interleaving: caller `A` runs the whole protocol with a
successful execution; caller `B` starts later, passes the guard (the
completion is outside the 30-second window), acquires the then-free lease,
and its in-lease history check routes it to release without invoking. -/
def benignTrace : List Ev :=
  [.guard "A" 0, .acquire "A" 0, .check "A" 1, .invoke "A" 2 true,
   .record "A" 3, .release "A" 4,
   .guard "B" 40000, .acquire "B" 40000, .check "B" 40001, .release "B" 40002]

/-- C1 amended witness: the benign interleaving satisfies both hypotheses
and its run invokes the executor exactly once. -/
theorem at_most_once_no_steal_witness :
    runTrace initCfg benignTrace
        = some ((runTrace initCfg benignTrace).getD initCfg) ∧
    noSteal initCfg benignTrace = true ∧
    recordsAllOk benignTrace = true ∧
    ((runTrace initCfg benignTrace).getD initCfg).invokes ≤ 1 :=
  ⟨rfl, rfl, rfl,
    at_most_once_no_steal benignTrace ((runTrace initCfg benignTrace).getD initCfg)
      rfl rfl rfl⟩

/-! ### The per-stage protocol against its specification -/

/-- Per-stage outcome, in the vocabulary of §4.3 of the specification. -/
inductive StageOutcome
  | recentlyExecuted
  | lockBusy
  | alreadyExecuted
  | success
  | failed
  | exnAbort
  deriving Repr, DecidableEq

/-- The per-stage decision exactly as the specification words it: (a) the
recent-completion guard first; (b) then lease acquisition, whose failure —
store error or foreign holder — is `lock_busy`; (c) then, under the lease,
the permanent idempotency check, and only then the executor invocation,
whose result is recorded as success or failure; an exception from the
in-lease steps aborts. -/
def specStageDecision (env : ExecEnv) (caller symbol : String) (side : Side)
    (stage : Nat) (L : Locks) : StageOutcome :=
  let k := lockKeyFor symbol side stage
  if env.hasRecent symbol stage then .recentlyExecuted
  else if env.lockFail k ∨ (lockTry L k caller).2 = false then .lockBusy
  else
    match env.stageCompleted symbol stage with
    | .error _ => .exnAbort
    | .ok true => .alreadyExecuted
    | .ok false =>
        match env.execute (stripUSDT symbol) stage with
        | .error _ => .exnAbort
        | .ok true => .success
        | .ok false => .failed

/-- The specification's bookkeeping for one stage outcome: guard and busy
outcomes skip the resource and leave the lease table untouched; in-lease
outcomes record their detail, update the counters, and always release the
lease, also on the abort path. -/
def specStageApply (caller symbol : String) (side : Side) (stage : Nat)
    (acc : PassAcc) : StageOutcome → PassAcc × StageFlow :=
  let k := lockKeyFor symbol side stage
  let afterLease := lockRelease (lockTry acc.locks k caller).1 k caller
  fun o =>
    match o with
    | .recentlyExecuted =>
        ({ acc with skippedCount := acc.skippedCount + 1
                    details := acc.details ++ [⟨symbol, stage, "recently_executed"⟩] },
         .skipPos)
    | .lockBusy =>
        ({ acc with skippedCount := acc.skippedCount + 1
                    details := acc.details ++ [⟨symbol, stage, "lock_busy"⟩] },
         .skipPos)
    | .alreadyExecuted =>
        ({ acc with skippedCount := acc.skippedCount + 1
                    details := acc.details ++ [⟨symbol, stage, "already_executed"⟩]
                    locks := afterLease },
         .next)
    | .success =>
        ({ acc with executedCount := acc.executedCount + 1
                    details := acc.details ++ [⟨symbol, stage, "success"⟩]
                    locks := afterLease },
         .next)
    | .failed =>
        ({ acc with details := acc.details ++ [⟨symbol, stage, "failed"⟩]
                    locks := afterLease },
         .next)
    | .exnAbort =>
        ({ acc with locks := afterLease }, .abort)

theorem lockHeldBy_cons (L : Locks) (e : String × String) (k : String) :
    lockHeldBy (e :: L) k = if e.1 = k then some e.2 else lockHeldBy L k := by
  by_cases h : e.1 = k <;> simp [lockHeldBy, List.find?, h]

theorem lockHeldBy_erase_self (L : Locks) (k : String) :
    lockHeldBy (List.filter (fun e => !(e.1 = k : Bool)) L) k = none := by
  induction L with
  | nil => rfl
  | cons e es ih =>
      by_cases he : e.1 = k
      · rw [List.filter_cons_of_neg (by simp [he])]
        exact ih
      · rw [List.filter_cons_of_pos (by simp [he]), lockHeldBy_cons, if_neg he]
        exact ih

theorem lockHeldBy_erase_ne (L : Locks) (k k2 : String) (hne : ¬ k2 = k) :
    lockHeldBy (List.filter (fun e => !(e.1 = k : Bool)) L) k2 = lockHeldBy L k2 := by
  induction L with
  | nil => rfl
  | cons e es ih =>
      by_cases he : e.1 = k
      · rw [List.filter_cons_of_neg (by simp [he]), ih, lockHeldBy_cons,
          if_neg (by rw [he]; intro h2; exact hne h2.symm)]
      · rw [List.filter_cons_of_pos (by simp [he]), lockHeldBy_cons,
          lockHeldBy_cons, ih]

/-- The translated stage block agrees with the specification's
decision-then-bookkeeping presentation of the per-stage protocol. -/
theorem runStage_eq_spec (env : ExecEnv) (caller symbol : String) (side : Side)
    (stage : Nat) (acc : PassAcc) :
    runStage env caller symbol side stage acc
      = specStageApply caller symbol side stage acc
          (specStageDecision env caller symbol side stage acc.locks) := by
  by_cases hr : env.hasRecent symbol stage
  · simp [runStage, specStageDecision, specStageApply, hr]
  · by_cases hlf : env.lockFail (lockKeyFor symbol side stage)
    · simp [runStage, specStageDecision, specStageApply, hr, hlf]
    · cases hlt : lockTry acc.locks (lockKeyFor symbol side stage) caller with
      | mk L1 granted =>
          cases granted with
          | false =>
              simp [runStage, specStageDecision, specStageApply, hr, hlf, hlt]
          | true =>
              cases hsc : env.stageCompleted symbol stage with
              | error e =>
                  simp [runStage, specStageDecision, specStageApply, hr, hlf,
                    hlt, hsc]
              | ok b =>
                  cases b with
                  | true =>
                      simp [runStage, specStageDecision, specStageApply, hr,
                        hlf, hlt, hsc]
                  | false =>
                      cases hex : env.execute (stripUSDT symbol) stage with
                      | error e =>
                          simp [runStage, specStageDecision, specStageApply,
                            hr, hlf, hlt, hsc, hex]
                      | ok b2 =>
                          cases b2 <;>
                            simp [runStage, specStageDecision, specStageApply,
                              hr, hlf, hlt, hsc, hex]

/-- A granted acquisition followed by its release leaves every key either
unchanged or free. -/
theorem lockTry_release_clean (L : Locks) (k0 caller k : String)
    (h : (lockTry L k0 caller).2 = true) :
    lockHeldBy (lockRelease (lockTry L k0 caller).1 k0 caller) k = lockHeldBy L k ∨
    lockHeldBy (lockRelease (lockTry L k0 caller).1 k0 caller) k = none := by
  cases hlk : lockHeldBy L k0 with
  | none =>
      have h1 : lockTry L k0 caller = ((k0, caller) :: L, true) := by
        simp [lockTry, hlk]
      rw [h1]
      have h2 : lockHeldBy ((k0, caller) :: L) k0 = some caller := by
        rw [lockHeldBy_cons]; simp
      simp only [lockRelease, h2, if_pos]
      by_cases hk : k = k0
      · subst hk; right; exact lockHeldBy_erase_self _ _
      · left
        rw [lockHeldBy_erase_ne _ _ _ hk, lockHeldBy_cons, if_neg (fun h3 => hk h3.symm)]
  | some hv =>
      by_cases hown : hv = caller
      · have h1 : lockTry L k0 caller = (L, true) := by simp [lockTry, hlk, hown]
        rw [h1]
        have hlk2 : lockHeldBy L k0 = some caller := by rw [hlk, hown]
        simp only [lockRelease, hlk2, if_pos]
        by_cases hk : k = k0
        · subst hk; right; exact lockHeldBy_erase_self _ _
        · left; rw [lockHeldBy_erase_ne _ _ _ hk]
      · exfalso
        have h1 : lockTry L k0 caller = (L, false) := by simp [lockTry, hlk, hown]
        rw [h1] at h
        cases h

/-- Each stage block appends at most one detail, tagged with its own
symbol and stage. -/
theorem runStage_details_tagged (env : ExecEnv) (caller symbol : String)
    (side : Side) (stage : Nat) (acc : PassAcc) :
    ∃ δ : List Detail,
      (runStage env caller symbol side stage acc).1.details = acc.details ++ δ ∧
      ∀ d ∈ δ, d.symbol = symbol ∧ d.stage = stage := by
  rw [runStage_eq_spec]
  cases specStageDecision env caller symbol side stage acc.locks with
  | recentlyExecuted =>
      exact ⟨[⟨symbol, stage, "recently_executed"⟩], rfl, by simp⟩
  | lockBusy => exact ⟨[⟨symbol, stage, "lock_busy"⟩], rfl, by simp⟩
  | alreadyExecuted =>
      exact ⟨[⟨symbol, stage, "already_executed"⟩], rfl, by simp⟩
  | success => exact ⟨[⟨symbol, stage, "success"⟩], rfl, by simp⟩
  | failed => exact ⟨[⟨symbol, stage, "failed"⟩], rfl, by simp⟩
  | exnAbort => exact ⟨[], by simp [specStageApply], by simp⟩

/-- One position's evaluation appends its stage-1 outcomes, then its
stage-2 outcomes. -/
theorem runPosition_details_split (env : ExecEnv) (caller : String)
    (p : PosRow) (acc : PassAcc) :
    ∃ δ1 δ2 : List Detail,
      (runPosition env caller p acc).1.details = acc.details ++ δ1 ++ δ2 ∧
      (∀ d ∈ δ1, d.symbol = p.symbol ∧ d.stage = 1) ∧
      (∀ d ∈ δ2, d.symbol = p.symbol ∧ d.stage = 2) := by
have hstage2 : ∀ (currentR adjustedR2 : ℚ) (a : PassAcc),
    ∃ δ2 : List Detail,
      (runStage2Part env caller p currentR adjustedR2 a).1.details
          = a.details ++ δ2 ∧
      ∀ d ∈ δ2, d.symbol = p.symbol ∧ d.stage = 2 := by
  intro currentR adjustedR2 a
  by_cases h2 : adjustedR2 ≤ currentR
  · obtain ⟨δ2, hδ2, hp2⟩ := runStage_details_tagged env caller p.symbol p.side 2 a
    cases hrs : runStage env caller p.symbol p.side 2 a with
    | mk a2 fl =>
        rw [hrs] at hδ2
        cases fl <;> exact ⟨δ2, by simpa [runStage2Part, h2, hrs] using hδ2, hp2⟩
  · exact ⟨[], by simp [runStage2Part, h2], by simp⟩
by_cases hsl : p.stopLoss ≤ 0
· exact ⟨[], [], by simp [runPosition, hsl], by simp, by simp⟩
· cases hpr : env.price p.symbol with
  | error e =>
      exact ⟨[], [], by simp [runPosition, hsl, hpr], by simp, by simp⟩
  | ok currentPrice =>
      by_cases hcp : currentPrice ≤ 0
      · exact ⟨[], [], by simp [runPosition, hsl, hpr, hcp], by simp, by simp⟩
      · by_cases hrisk : |p.entryPrice - originalStopLossFor env p| = 0
        · exact ⟨[], [],
            by simp [runPosition, hsl, hpr, hcp, hrisk], by simp, by simp⟩
        · cases hth : env.thresholds p.symbol with
          | error e =>
              exact ⟨[], [],
                by simp [runPosition, hsl, hpr, hcp, hrisk, hth],
                by simp, by simp⟩
          | ok pr =>
              obtain ⟨adjustedR1, adjustedR2⟩ := pr
              have hrp : runPosition env caller p acc =
                  (if adjustedR1 ≤ calculateRMultiple p.entryPrice currentPrice
                        (originalStopLossFor env p) p.side then
                    match runStage env caller p.symbol p.side 1 acc with
                    | (a1, .abort) => (a1, true)
                    | (a1, .skipPos) => (a1, false)
                    | (a1, .next) =>
                        runStage2Part env caller p
                          (calculateRMultiple p.entryPrice currentPrice
                            (originalStopLossFor env p) p.side) adjustedR2 a1
                  else
                    runStage2Part env caller p
                      (calculateRMultiple p.entryPrice currentPrice
                        (originalStopLossFor env p) p.side) adjustedR2 acc) := by
                simp [runPosition, hsl, hpr, hcp, hrisk, hth]
              rw [hrp]
              by_cases h1 : adjustedR1 ≤ calculateRMultiple p.entryPrice
                  currentPrice (originalStopLossFor env p) p.side
              · rw [if_pos h1]
                obtain ⟨δ1, hδ1, hp1⟩ := runStage_details_tagged env caller p.symbol p.side 1 acc
                cases hrs : runStage env caller p.symbol p.side 1 acc with
                | mk a1 fl =>
                    rw [hrs] at hδ1
                    cases fl with
                    | abort => exact ⟨δ1, [], by simpa using hδ1, hp1, by simp⟩
                    | skipPos => exact ⟨δ1, [], by simpa using hδ1, hp1, by simp⟩
                    | next =>
                        obtain ⟨δ2, hδ2, hp2⟩ := hstage2
                          (calculateRMultiple p.entryPrice currentPrice
                            (originalStopLossFor env p) p.side) adjustedR2 a1
                        refine ⟨δ1, δ2, ?_, hp1, hp2⟩
                        dsimp only at hδ1
                        rw [hδ2, hδ1]
              · rw [if_neg h1]
                obtain ⟨δ2, hδ2, hp2⟩ := hstage2
                  (calculateRMultiple p.entryPrice currentPrice
                    (originalStopLossFor env p) p.side) adjustedR2 acc
                exact ⟨[], δ2, by simpa using hδ2, by simp, hp2⟩

/-- C3: the per-stage protocol of `executeCheck` refines the
specification: (a) each stage block computes exactly the spec's
guard → lease → in-lease-recheck → invoke decision and its bookkeeping,
with the lease released on every in-lease exit path including executor
exceptions; (b) after a stage block every lock key is either unchanged or
free — no lease survives a stage block held by the caller; (c) within one
position, stage-1 outcomes are recorded before stage-2 outcomes (ascending
stage order). -/
theorem stage_protocol_refines_spec :
    (∀ (env : ExecEnv) (caller symbol : String) (side : Side) (stage : Nat)
        (acc : PassAcc),
      runStage env caller symbol side stage acc
        = specStageApply caller symbol side stage acc
            (specStageDecision env caller symbol side stage acc.locks)) ∧
    (∀ (env : ExecEnv) (caller symbol : String) (side : Side) (stage : Nat)
        (acc : PassAcc) (k : String),
      lockHeldBy (runStage env caller symbol side stage acc).1.locks k
          = lockHeldBy acc.locks k ∨
        lockHeldBy (runStage env caller symbol side stage acc).1.locks k = none) ∧
    (∀ (env : ExecEnv) (caller : String) (p : PosRow) (acc : PassAcc),
      ∃ δ1 δ2 : List Detail,
        (runPosition env caller p acc).1.details = acc.details ++ δ1 ++ δ2 ∧
        (∀ d ∈ δ1, d.symbol = p.symbol ∧ d.stage = 1) ∧
        (∀ d ∈ δ2, d.symbol = p.symbol ∧ d.stage = 2)) := by
  refine ⟨runStage_eq_spec, ?_, ?_⟩
  · intro env caller symbol side stage acc k
    rw [runStage_eq_spec]
    cases hd : specStageDecision env caller symbol side stage acc.locks with
    | recentlyExecuted => left; rfl
    | lockBusy => left; rfl
    | alreadyExecuted =>
        refine lockTry_release_clean acc.locks _ caller k ?_
        simp only [specStageDecision] at hd
        split at hd
        · cases hd
        · split at hd
          · cases hd
          · rename_i hbusy
            push_neg at hbusy
            simpa using hbusy.2
    | success =>
        refine lockTry_release_clean acc.locks _ caller k ?_
        simp only [specStageDecision] at hd
        split at hd
        · cases hd
        · split at hd
          · cases hd
          · rename_i hbusy
            push_neg at hbusy
            simpa using hbusy.2
    | failed =>
        refine lockTry_release_clean acc.locks _ caller k ?_
        simp only [specStageDecision] at hd
        split at hd
        · cases hd
        · split at hd
          · cases hd
          · rename_i hbusy
            push_neg at hbusy
            simpa using hbusy.2
    | exnAbort =>
        refine lockTry_release_clean acc.locks _ caller k ?_
        simp only [specStageDecision] at hd
        split at hd
        · cases hd
        · split at hd
          · cases hd
          · rename_i hbusy
            push_neg at hbusy
            simpa using hbusy.2
  · exact runPosition_details_split

/-! ### Exception containment in one pass -/

/-- A position whose evaluation reaches the volatility-threshold call. -/
def posAAA : PosRow :=
  { symbol := "AAA", side := .long, entryPrice := 2, stopLoss := 1, quantity := 1 }

/-- A second position that would produce a per-stage outcome if reached. -/
def posBBB : PosRow :=
  { symbol := "BBB", side := .long, entryPrice := 2, stopLoss := 1, quantity := 1 }

/-- An environment in which the volatility analysis for `AAA` raises and
everything else is healthy. -/
def envVolAbort : ExecEnv :=
  { positionsQ := .ok [posAAA, posBBB]
    configOk := true
    price := fun _ => .ok 4
    stage1History := fun _ => .ok none
    thresholds := fun s => if s = "AAA" then .error () else .ok (1, 2)
    hasRecent := fun _ _ => true
    lockFail := fun _ => false
    stageCompleted := fun _ _ => .ok false
    execute := fun _ _ => .ok true }

/-- C5 counterexample: an exception in the volatility analysis of the first
position aborts the whole pass — the second position, which on its own
would have produced a `recently_executed` outcome, is never evaluated.
There is no per-resource catch for this call. -/
theorem per_position_containment_counterexample :
    (executeCheck envVolAbort "health-check" []).1
        = { success := false, executed := 0, skipped := 0, details := [] } ∧
    (executeCheck { envVolAbort with positionsQ := .ok [posBBB] }
        "health-check" []).1
        = { success := true, executed := 0, skipped := 1,
            details := [⟨"BBB", 1, "recently_executed"⟩] } :=
  of_decide_eq_true (by with_unfolding_all rfl)

/-- C5 amended: exceptions from the price fetch and from the stage-1
history recovery query are caught per position — a price-fetch failure
skips just that position and the pass continues with the rest, and a
history-query failure falls back to the stored stop-loss; but an exception
from the volatility analysis is not caught per position: it aborts the
pass, and the remaining positions are not evaluated. -/
theorem per_position_exception_containment (env : ExecEnv) (caller : String)
    (p : PosRow) (ps : List PosRow) (acc : PassAcc) :
    (env.price p.symbol = .error () →
      runPositions env caller (p :: ps) acc = runPositions env caller ps acc) ∧
    (env.stage1History p.symbol = .error () →
      originalStopLossFor env p = p.stopLoss) ∧
    (∀ currentPrice : ℚ, ¬ p.stopLoss ≤ 0 → env.price p.symbol = .ok currentPrice →
      ¬ currentPrice ≤ 0 → ¬ |p.entryPrice - originalStopLossFor env p| = 0 →
      env.thresholds p.symbol = .error () →
      runPositions env caller (p :: ps) acc = (acc, true)) := by
  refine ⟨?_, ?_, ?_⟩
  · intro h
    have hp : runPosition env caller p acc = (acc, false) := by
      by_cases hsl : p.stopLoss ≤ 0
      · simp [runPosition, hsl]
      · simp [runPosition, hsl, h]
    simp [runPositions, hp]
  · intro h
    simp [originalStopLossFor, h]
  · intro currentPrice hsl hpr hcp hrisk hth
    have hp : runPosition env caller p acc = (acc, true) := by
      simp [runPosition, hsl, hpr, hcp, hrisk, hth]
    simp [runPositions, hp]

/-- An environment whose price fetch always raises. -/
def envPriceErr : ExecEnv := { envVolAbort with price := fun _ => .error () }

/-- An environment whose stage-1 history query always raises. -/
def envHistErr : ExecEnv :=
  { envVolAbort with stage1History := fun _ => .error () }

/-- C5 amended witness: a price error is contained (the pass continues with
the remaining positions), a history error falls back to the stored
stop-loss, and the volatility error on `AAA` aborts the remaining list. -/
theorem per_position_exception_containment_witness :
    (envPriceErr.price "AAA" = .error () ∧
      runPositions envPriceErr "health-check" [posAAA, posBBB]
          { executedCount := 0, skippedCount := 0, details := [], locks := [] }
        = runPositions envPriceErr "health-check" [posBBB]
            { executedCount := 0, skippedCount := 0, details := [], locks := [] }) ∧
    (envHistErr.stage1History "AAA" = .error () ∧
      originalStopLossFor envHistErr posAAA = posAAA.stopLoss) ∧
    (envVolAbort.thresholds "AAA" = .error () ∧
      runPositions envVolAbort "health-check" [posAAA, posBBB]
          { executedCount := 0, skippedCount := 0, details := [], locks := [] }
        = ({ executedCount := 0, skippedCount := 0, details := [], locks := [] },
            true)) :=
  ⟨⟨rfl,
      (per_position_exception_containment envPriceErr "health-check" posAAA [posBBB]
        { executedCount := 0, skippedCount := 0, details := [], locks := [] }).1 rfl⟩,
    ⟨rfl,
      (per_position_exception_containment envHistErr "health-check" posAAA [posBBB]
        { executedCount := 0, skippedCount := 0, details := [], locks := [] }).2.1 rfl⟩,
    ⟨rfl,
      (per_position_exception_containment envVolAbort "health-check" posAAA [posBBB]
        { executedCount := 0, skippedCount := 0, details := [], locks := [] }).2.2
        4
        (of_decide_eq_true (by with_unfolding_all rfl))
        rfl
        (of_decide_eq_true (by with_unfolding_all rfl))
        (of_decide_eq_true (by with_unfolding_all rfl))
        rfl⟩⟩

/-! ### Totality of `executeCheck` and the abort-point property -/

/-- Number of `success` entries in a details list. -/
def countSuccess (ds : List Detail) : Nat :=
  (ds.filter (fun d => d.result == "success")).length

/-- Number of skip entries (`recently_executed`, `lock_busy`,
`already_executed`) in a details list. -/
def countSkips (ds : List Detail) : Nat :=
  (ds.filter (fun d =>
    d.result == "recently_executed" || d.result == "lock_busy" ||
      d.result == "already_executed")).length

/-- The executed/skipped counters agree with the recorded details. -/
def coherent (acc : PassAcc) : Prop :=
  acc.executedCount = countSuccess acc.details ∧
    acc.skippedCount = countSkips acc.details

theorem runStage_coherent (env : ExecEnv) (caller symbol : String)
    (side : Side) (stage : Nat) (acc : PassAcc) (h : coherent acc) :
    coherent (runStage env caller symbol side stage acc).1 := by
  rw [runStage_eq_spec]
  cases specStageDecision env caller symbol side stage acc.locks <;>
    simp [specStageApply, coherent, countSuccess, countSkips,
      List.filter_append, h.1, h.2]

theorem runStage2Part_coherent (env : ExecEnv) (caller : String) (p : PosRow)
    (currentR adjustedR2 : ℚ) (a : PassAcc) (h : coherent a) :
    coherent (runStage2Part env caller p currentR adjustedR2 a).1 := by
  by_cases h2 : adjustedR2 ≤ currentR
  · have hs := runStage_coherent env caller p.symbol p.side 2 a h
    cases hrs : runStage env caller p.symbol p.side 2 a with
    | mk a2 fl =>
        rw [hrs] at hs
        cases fl <;> simpa [runStage2Part, h2, hrs] using hs
  · simpa [runStage2Part, h2] using h

theorem runPosition_coherent (env : ExecEnv) (caller : String) (p : PosRow)
    (acc : PassAcc) (h : coherent acc) :
    coherent (runPosition env caller p acc).1 := by
  by_cases hsl : p.stopLoss ≤ 0
  · simpa [runPosition, hsl] using h
  · cases hpr : env.price p.symbol with
    | error e => simpa [runPosition, hsl, hpr] using h
    | ok currentPrice =>
        by_cases hcp : currentPrice ≤ 0
        · simpa [runPosition, hsl, hpr, hcp] using h
        · by_cases hrisk : |p.entryPrice - originalStopLossFor env p| = 0
          · simpa [runPosition, hsl, hpr, hcp, hrisk] using h
          · cases hth : env.thresholds p.symbol with
            | error e => simpa [runPosition, hsl, hpr, hcp, hrisk, hth] using h
            | ok pr =>
                obtain ⟨adjustedR1, adjustedR2⟩ := pr
                by_cases h1 : adjustedR1 ≤ calculateRMultiple p.entryPrice
                    currentPrice (originalStopLossFor env p) p.side
                · have hs := runStage_coherent env caller p.symbol p.side 1 acc h
                  cases hrs : runStage env caller p.symbol p.side 1 acc with
                  | mk a1 fl =>
                      rw [hrs] at hs
                      cases fl with
                      | abort =>
                          simpa [runPosition, hsl, hpr, hcp, hrisk, hth, h1, hrs]
                            using hs
                      | skipPos =>
                          simpa [runPosition, hsl, hpr, hcp, hrisk, hth, h1, hrs]
                            using hs
                      | next =>
                          have := runStage2Part_coherent env caller p
                            (calculateRMultiple p.entryPrice currentPrice
                              (originalStopLossFor env p) p.side) adjustedR2 a1 hs
                          simpa [runPosition, hsl, hpr, hcp, hrisk, hth, h1, hrs]
                            using this
                · have := runStage2Part_coherent env caller p
                    (calculateRMultiple p.entryPrice currentPrice
                      (originalStopLossFor env p) p.side) adjustedR2 acc h
                  simpa [runPosition, hsl, hpr, hcp, hrisk, hth, h1] using this

theorem runPositions_coherent (env : ExecEnv) (caller : String)
    (ps : List PosRow) (acc : PassAcc) (h : coherent acc) :
    coherent (runPositions env caller ps acc).1 := by
  induction ps generalizing acc with
  | nil => simpa [runPositions] using h
  | cons p ps ih =>
      have hp := runPosition_coherent env caller p acc h
      cases hrp : runPosition env caller p acc with
      | mk acc1 aborted =>
          rw [hrp] at hp
          cases aborted with
          | true => simpa [runPositions, hrp] using hp
          | false =>
              have := ih acc1 hp
              simpa [runPositions, hrp] using this

/-- `env` with every oracle whose exception would escape to the outer catch
replaced by a non-raising one; the per-position-caught oracles (price,
stage-1 history) and the boolean oracles are untouched. -/
def repairEnv (env : ExecEnv) : ExecEnv :=
  { env with
    positionsQ :=
      match env.positionsQ with
      | .error _ => .ok []
      | .ok ps => .ok ps
    configOk := true
    thresholds := fun s =>
      match env.thresholds s with
      | .error _ => .ok (0, 0)
      | .ok v => .ok v
    stageCompleted := fun s n =>
      match env.stageCompleted s n with
      | .error _ => .ok false
      | .ok b => .ok b
    execute := fun s n =>
      match env.execute s n with
      | .error _ => .ok false
      | .ok b => .ok b }

theorem repair_stageCompleted_ok (env : ExecEnv) (s : String) (n : Nat) :
    ∃ b, (repairEnv env).stageCompleted s n = .ok b := by
  cases h : env.stageCompleted s n with
  | error e => exact ⟨false, by simp [repairEnv, h]⟩
  | ok b => exact ⟨b, by simp [repairEnv, h]⟩

theorem repair_execute_ok (env : ExecEnv) (s : String) (n : Nat) :
    ∃ b, (repairEnv env).execute s n = .ok b := by
  cases h : env.execute s n with
  | error e => exact ⟨false, by simp [repairEnv, h]⟩
  | ok b => exact ⟨b, by simp [repairEnv, h]⟩

theorem repair_thresholds_ok (env : ExecEnv) (s : String) :
    ∃ v, (repairEnv env).thresholds s = .ok v := by
  cases h : env.thresholds s with
  | error e => exact ⟨(0, 0), by simp [repairEnv, h]⟩
  | ok v => exact ⟨v, by simp [repairEnv, h]⟩

/-- A stage block aborts exactly when its spec decision is the uncaught
exception. -/
theorem runStage_abort_iff (env : ExecEnv) (caller symbol : String)
    (side : Side) (stage : Nat) (acc : PassAcc) :
    (runStage env caller symbol side stage acc).2 = .abort ↔
      specStageDecision env caller symbol side stage acc.locks = .exnAbort := by
  rw [runStage_eq_spec]
  cases hd : specStageDecision env caller symbol side stage acc.locks <;>
    simp [specStageApply, hd]

/-- An aborting stage block records no detail. -/
theorem runStage_abort_details (env : ExecEnv) (caller symbol : String)
    (side : Side) (stage : Nat) (acc : PassAcc)
    (h : (runStage env caller symbol side stage acc).2 = .abort) :
    (runStage env caller symbol side stage acc).1.details = acc.details := by
  rw [runStage_abort_iff] at h
  rw [runStage_eq_spec, h]
  rfl

/-- The repaired environment never aborts a stage block. -/
theorem runStage_repaired_no_abort (env : ExecEnv) (caller symbol : String)
    (side : Side) (stage : Nat) (acc : PassAcc) :
    (runStage (repairEnv env) caller symbol side stage acc).2 ≠ .abort := by
  intro habort
  rw [runStage_abort_iff] at habort
  revert habort
  intro hd
  obtain ⟨b, hb⟩ := repair_stageCompleted_ok env symbol stage
  obtain ⟨b2, hb2⟩ := repair_execute_ok env (stripUSDT symbol) stage
  simp only [specStageDecision] at hd
  split at hd
  · cases hd
  · split at hd
    · cases hd
    · rw [hb] at hd
      cases b with
      | true => cases hd
      | false =>
          rw [hb2] at hd
          cases b2 <;> cases hd

/-- A non-aborting stage block behaves identically in the repaired
environment. -/
theorem runStage_repair_eq (env : ExecEnv) (caller symbol : String)
    (side : Side) (stage : Nat) (acc : PassAcc)
    (h : (runStage env caller symbol side stage acc).2 ≠ .abort) :
    runStage (repairEnv env) caller symbol side stage acc
      = runStage env caller symbol side stage acc := by
  rw [runStage_eq_spec, runStage_eq_spec]
  have hd : specStageDecision (repairEnv env) caller symbol side stage acc.locks
      = specStageDecision env caller symbol side stage acc.locks := by
    by_cases hr : env.hasRecent symbol stage
    · simp [specStageDecision, repairEnv, hr]
    · by_cases hbusy : env.lockFail (lockKeyFor symbol side stage) ∨
          (lockTry acc.locks (lockKeyFor symbol side stage) caller).2 = false
      · simp [specStageDecision, repairEnv, hr, hbusy]
      · cases hsc : env.stageCompleted symbol stage with
        | error e =>
            exfalso
            apply h
            rw [runStage_abort_iff]
            simp [specStageDecision, hr, hbusy, hsc]
        | ok b =>
            cases b with
            | true => simp [specStageDecision, repairEnv, hr, hbusy, hsc]
            | false =>
                cases hex : env.execute (stripUSDT symbol) stage with
                | error e =>
                    exfalso
                    apply h
                    rw [runStage_abort_iff]
                    simp [specStageDecision, hr, hbusy, hsc, hex]
                | ok b2 =>
                    simp [specStageDecision, repairEnv, hr, hbusy, hsc, hex]
  rw [hd]

theorem runStage2Part_repaired_no_abort (env : ExecEnv) (caller : String)
    (p : PosRow) (currentR adjustedR2 : ℚ) (a : PassAcc) :
    (runStage2Part (repairEnv env) caller p currentR adjustedR2 a).2 = false := by
  by_cases h2 : adjustedR2 ≤ currentR
  · cases hrs : runStage (repairEnv env) caller p.symbol p.side 2 a with
    | mk a2 fl =>
        have hna := runStage_repaired_no_abort env caller p.symbol p.side 2 a
        rw [hrs] at hna
        cases fl with
        | abort => exact absurd rfl hna
        | skipPos => simp [runStage2Part, h2, hrs]
        | next => simp [runStage2Part, h2, hrs]
  · simp [runStage2Part, h2]

theorem runPosition_repaired_no_abort (env : ExecEnv) (caller : String)
    (p : PosRow) (acc : PassAcc) :
    (runPosition (repairEnv env) caller p acc).2 = false := by
  by_cases hsl : p.stopLoss ≤ 0
  · simp [runPosition, hsl]
  · cases hpr : (repairEnv env).price p.symbol with
    | error e => simp [runPosition, hsl, hpr]
    | ok currentPrice =>
        by_cases hcp : currentPrice ≤ 0
        · simp [runPosition, hsl, hpr, hcp]
        · by_cases hrisk :
              |p.entryPrice - originalStopLossFor (repairEnv env) p| = 0
          · simp [runPosition, hsl, hpr, hcp, hrisk]
          · obtain ⟨v, hv⟩ := repair_thresholds_ok env p.symbol
            obtain ⟨adjustedR1, adjustedR2⟩ := v
            by_cases h1 : adjustedR1 ≤ calculateRMultiple p.entryPrice
                currentPrice (originalStopLossFor (repairEnv env) p) p.side
            · cases hrs : runStage (repairEnv env) caller p.symbol p.side 1 acc with
              | mk a1 fl =>
                  have hna := runStage_repaired_no_abort env caller p.symbol
                    p.side 1 acc
                  rw [hrs] at hna
                  cases fl with
                  | abort => exact absurd rfl hna
                  | skipPos => simp [runPosition, hsl, hpr, hcp, hrisk, hv, h1, hrs]
                  | next =>
                      have h2p := runStage2Part_repaired_no_abort env caller p
                        (calculateRMultiple p.entryPrice currentPrice
                          (originalStopLossFor (repairEnv env) p) p.side)
                        adjustedR2 a1
                      cases hr2 : runStage2Part (repairEnv env) caller p
                          (calculateRMultiple p.entryPrice currentPrice
                            (originalStopLossFor (repairEnv env) p) p.side)
                          adjustedR2 a1 with
                      | mk a2 ab =>
                          rw [hr2] at h2p
                          simp [runPosition, hsl, hpr, hcp, hrisk, hv, h1, hrs, hr2, h2p]
            · have h2p := runStage2Part_repaired_no_abort env caller p
                (calculateRMultiple p.entryPrice currentPrice
                  (originalStopLossFor (repairEnv env) p) p.side) adjustedR2 acc
              cases hr2 : runStage2Part (repairEnv env) caller p
                  (calculateRMultiple p.entryPrice currentPrice
                    (originalStopLossFor (repairEnv env) p) p.side)
                  adjustedR2 acc with
              | mk a2 ab =>
                  rw [hr2] at h2p
                  simp [runPosition, hsl, hpr, hcp, hrisk, hv, h1, hr2, h2p]

theorem runStage2Part_appends (env : ExecEnv) (caller : String) (p : PosRow)
    (currentR adjustedR2 : ℚ) (a : PassAcc) :
    ∃ δ, (runStage2Part env caller p currentR adjustedR2 a).1.details
        = a.details ++ δ := by
  by_cases h2 : adjustedR2 ≤ currentR
  · obtain ⟨δ, hδ, _⟩ := runStage_details_tagged env caller p.symbol p.side 2 a
    cases hrs : runStage env caller p.symbol p.side 2 a with
    | mk a2 fl =>
        rw [hrs] at hδ
        cases fl <;> exact ⟨δ, by simpa [runStage2Part, h2, hrs] using hδ⟩
  · exact ⟨[], by simp [runStage2Part, h2]⟩

theorem runPosition_appends (env : ExecEnv) (caller : String) (p : PosRow)
    (acc : PassAcc) :
    ∃ δ, (runPosition env caller p acc).1.details = acc.details ++ δ := by
  obtain ⟨δ1, δ2, h, _, _⟩ := runPosition_details_split env caller p acc
  exact ⟨δ1 ++ δ2, by rw [h, List.append_assoc]⟩

theorem runPositions_appends (env : ExecEnv) (caller : String)
    (ps : List PosRow) (acc : PassAcc) :
    ∃ δ, (runPositions env caller ps acc).1.details = acc.details ++ δ := by
  induction ps generalizing acc with
  | nil => exact ⟨[], by simp [runPositions]⟩
  | cons p ps ih =>
      obtain ⟨δ0, h0⟩ := runPosition_appends env caller p acc
      cases hrp : runPosition env caller p acc with
      | mk acc1 aborted =>
          rw [hrp] at h0
          cases aborted with
          | true => exact ⟨δ0, by simpa [runPositions, hrp] using h0⟩
          | false =>
              obtain ⟨δ1, h1⟩ := ih acc1
              refine ⟨δ0 ++ δ1, ?_⟩
              have : runPositions env caller (p :: ps) acc
                  = runPositions env caller ps acc1 := by
                simp [runPositions, hrp]
              rw [this, h1]
              dsimp only at h0
              rw [h0, List.append_assoc]

theorem runStage2Part_repair_eq (env : ExecEnv) (caller : String) (p : PosRow)
    (currentR adjustedR2 : ℚ) (a : PassAcc)
    (h : (runStage2Part env caller p currentR adjustedR2 a).2 = false) :
    runStage2Part (repairEnv env) caller p currentR adjustedR2 a
      = runStage2Part env caller p currentR adjustedR2 a := by
  by_cases h2 : adjustedR2 ≤ currentR
  · cases hrs : runStage env caller p.symbol p.side 2 a with
    | mk a2 fl =>
        cases fl with
        | abort => exfalso; simp [runStage2Part, h2, hrs] at h
        | skipPos =>
            have hre := runStage_repair_eq env caller p.symbol p.side 2 a
              (by rw [hrs]; simp)
            simp [runStage2Part, h2, hrs, hre]
        | next =>
            have hre := runStage_repair_eq env caller p.symbol p.side 2 a
              (by rw [hrs]; simp)
            simp [runStage2Part, h2, hrs, hre]
  · simp [runStage2Part, h2]

theorem runStage2Part_abort_details (env : ExecEnv) (caller : String)
    (p : PosRow) (currentR adjustedR2 : ℚ) (a : PassAcc)
    (h : (runStage2Part env caller p currentR adjustedR2 a).2 = true) :
    (runStage2Part env caller p currentR adjustedR2 a).1.details
      = a.details := by
  by_cases h2 : adjustedR2 ≤ currentR
  · cases hrs : runStage env caller p.symbol p.side 2 a with
    | mk a2 fl =>
        cases fl with
        | abort =>
            have hd := runStage_abort_details env caller p.symbol p.side 2 a
              (by rw [hrs])
            rw [hrs] at hd
            simpa [runStage2Part, h2, hrs] using hd
        | skipPos => exfalso; simp [runStage2Part, h2, hrs] at h
        | next => exfalso; simp [runStage2Part, h2, hrs] at h
  · exfalso; simp [runStage2Part, h2] at h

/-- A non-aborting position evaluation behaves identically in the repaired
environment. -/
theorem runPosition_repair_eq (env : ExecEnv) (caller : String) (p : PosRow)
    (acc : PassAcc) (h : (runPosition env caller p acc).2 = false) :
    runPosition (repairEnv env) caller p acc = runPosition env caller p acc := by
  by_cases hsl : p.stopLoss ≤ 0
  · simp [runPosition, hsl]
  · cases hpr : env.price p.symbol with
    | error e =>
        have hpr2 : (repairEnv env).price p.symbol = .error e := hpr
        simp [runPosition, hsl, hpr, hpr2]
    | ok currentPrice =>
        have hpr2 : (repairEnv env).price p.symbol = .ok currentPrice := hpr
        by_cases hcp : currentPrice ≤ 0
        · simp [runPosition, hsl, hpr, hpr2, hcp]
        · by_cases hrisk : |p.entryPrice - originalStopLossFor env p| = 0
          · have hrisk2 :
                |p.entryPrice - originalStopLossFor (repairEnv env) p| = 0 := hrisk
            simp [runPosition, hsl, hpr, hpr2, hcp, hrisk, hrisk2]
          · have hrisk2 :
                ¬ |p.entryPrice - originalStopLossFor (repairEnv env) p| = 0 := hrisk
            cases hth : env.thresholds p.symbol with
            | error e =>
                exfalso
                simp [runPosition, hsl, hpr, hcp, hrisk, hth] at h
            | ok v =>
                obtain ⟨adjustedR1, adjustedR2⟩ := v
                have hthr : (repairEnv env).thresholds p.symbol
                    = .ok (adjustedR1, adjustedR2) := by simp [repairEnv, hth]
                have hRrep : originalStopLossFor (repairEnv env) p
                    = originalStopLossFor env p := rfl
                by_cases h1 : adjustedR1 ≤ calculateRMultiple p.entryPrice
                    currentPrice (originalStopLossFor env p) p.side
                · cases hrs : runStage env caller p.symbol p.side 1 acc with
                  | mk a1 fl =>
                      cases fl with
                      | abort =>
                          exfalso
                          simp [runPosition, hsl, hpr, hcp, hrisk, hth, h1, hrs] at h
                      | skipPos =>
                          have hre := runStage_repair_eq env caller p.symbol
                            p.side 1 acc (by rw [hrs]; simp)
                          simp [runPosition, hsl, hpr, hpr2, hcp, hrisk, hrisk2,
                            hth, hthr, hRrep, h1, hrs, hre]
                      | next =>
                          have hre := runStage_repair_eq env caller p.symbol
                            p.side 1 acc (by rw [hrs]; simp)
                          have h2eq := runStage2Part_repair_eq env caller p
                            (calculateRMultiple p.entryPrice currentPrice
                              (originalStopLossFor env p) p.side) adjustedR2 a1
                            (by
                              by_contra hab
                              rw [Bool.not_eq_false] at hab
                              simp [runPosition, hsl, hpr, hcp, hrisk, hth, h1,
                                hrs] at h
                              cases hr2 : runStage2Part env caller p
                                  (calculateRMultiple p.entryPrice currentPrice
                                    (originalStopLossFor env p) p.side)
                                  adjustedR2 a1 with
                              | mk a2 ab =>
                                  rw [hr2] at hab h
                                  dsimp only at hab
                                  rw [hab] at h
                                  simp at h)
                          simp [runPosition, hsl, hpr, hpr2, hcp, hrisk, hrisk2,
                            hth, hthr, hRrep, h1, hrs, hre, h2eq]
                · have h2eq := runStage2Part_repair_eq env caller p
                    (calculateRMultiple p.entryPrice currentPrice
                      (originalStopLossFor env p) p.side) adjustedR2 acc
                    (by
                      by_contra hab
                      rw [Bool.not_eq_false] at hab
                      simp [runPosition, hsl, hpr, hcp, hrisk, hth, h1] at h
                      cases hr2 : runStage2Part env caller p
                          (calculateRMultiple p.entryPrice currentPrice
                            (originalStopLossFor env p) p.side)
                          adjustedR2 acc with
                      | mk a2 ab =>
                          rw [hr2] at hab h
                          dsimp only at hab
                          rw [hab] at h
                          simp at h)
                  simp [runPosition, hsl, hpr, hpr2, hcp, hrisk, hrisk2, hth,
                    hthr, hRrep, h1, h2eq]

/-- An aborting position evaluation has recorded a prefix of what the
repaired environment records for the same position. -/
theorem runPosition_repair_prefix (env : ExecEnv) (caller : String)
    (p : PosRow) (acc : PassAcc)
    (h : (runPosition env caller p acc).2 = true) :
    (runPosition env caller p acc).1.details
      <+: (runPosition (repairEnv env) caller p acc).1.details := by
  obtain ⟨δr, hδr⟩ := runPosition_appends (repairEnv env) caller p acc
  by_cases hsl : p.stopLoss ≤ 0
  · exfalso; simp [runPosition, hsl] at h
  · cases hpr : env.price p.symbol with
    | error e => exfalso; simp [runPosition, hsl, hpr] at h
    | ok currentPrice =>
        by_cases hcp : currentPrice ≤ 0
        · exfalso; simp [runPosition, hsl, hpr, hcp] at h
        · by_cases hrisk : |p.entryPrice - originalStopLossFor env p| = 0
          · exfalso; simp [runPosition, hsl, hpr, hcp, hrisk] at h
          · cases hth : env.thresholds p.symbol with
            | error e =>
                have henv : (runPosition env caller p acc).1.details
                    = acc.details := by
                  simp [runPosition, hsl, hpr, hcp, hrisk, hth]
                rw [henv, hδr]
                exact List.prefix_append _ _
            | ok v =>
                obtain ⟨adjustedR1, adjustedR2⟩ := v
                by_cases h1 : adjustedR1 ≤ calculateRMultiple p.entryPrice
                    currentPrice (originalStopLossFor env p) p.side
                · cases hrs : runStage env caller p.symbol p.side 1 acc with
                  | mk a1 fl =>
                      cases fl with
                      | abort =>
                          have hd1 := runStage_abort_details env caller p.symbol
                            p.side 1 acc (by rw [hrs])
                          rw [hrs] at hd1
                          have henv : (runPosition env caller p acc).1.details
                              = acc.details := by
                            simp [runPosition, hsl, hpr, hcp, hrisk, hth, h1, hrs]
                            exact hd1
                          rw [henv, hδr]
                          exact List.prefix_append _ _
                      | skipPos =>
                          exfalso
                          simp [runPosition, hsl, hpr, hcp, hrisk, hth, h1,
                            hrs] at h
                      | next =>
                          cases hr2 : runStage2Part env caller p
                              (calculateRMultiple p.entryPrice currentPrice
                                (originalStopLossFor env p) p.side)
                              adjustedR2 a1 with
                          | mk a2 ab =>
                              cases ab with
                              | false =>
                                  exfalso
                                  simp [runPosition, hsl, hpr, hcp, hrisk, hth,
                                    h1, hrs, hr2] at h
                              | true =>
                                  have hd2 := runStage2Part_abort_details env
                                    caller p
                                    (calculateRMultiple p.entryPrice currentPrice
                                      (originalStopLossFor env p) p.side)
                                    adjustedR2 a1 (by rw [hr2])
                                  rw [hr2] at hd2
                                  dsimp only at hd2
                                  have henv : (runPosition env caller p acc).1.details
                                      = a1.details := by
                                    simp [runPosition, hsl, hpr, hcp, hrisk,
                                      hth, h1, hrs, hr2]
                                    exact hd2
                                  -- the repaired run replays stage 1 and then
                                  -- extends a1's details
                                  have hre := runStage_repair_eq env caller
                                    p.symbol p.side 1 acc (by rw [hrs]; simp)
                                  obtain ⟨δ2, hδ2⟩ := runStage2Part_appends
                                    (repairEnv env) caller p
                                    (calculateRMultiple p.entryPrice currentPrice
                                      (originalStopLossFor env p) p.side)
                                    adjustedR2 a1
                                  have hrep : (runPosition (repairEnv env)
                                      caller p acc).1.details
                                      = a1.details ++ δ2 := by
                                    have hpr2 : (repairEnv env).price p.symbol
                                        = .ok currentPrice := hpr
                                    have hrisk2 : ¬ |p.entryPrice -
                                        originalStopLossFor (repairEnv env) p|
                                        = 0 := hrisk
                                    have hthr : (repairEnv env).thresholds p.symbol
                                        = .ok (adjustedR1, adjustedR2) := by
                                      simp [repairEnv, hth]
                                    have hRrep : originalStopLossFor
                                        (repairEnv env) p
                                        = originalStopLossFor env p := rfl
                                    simp [runPosition, hsl, hpr2, hcp, hrisk2,
                                      hthr, hRrep, h1, hre, hrs]
                                    cases hr2r : runStage2Part (repairEnv env)
                                        caller p
                                        (calculateRMultiple p.entryPrice
                                          currentPrice
                                          (originalStopLossFor env p) p.side)
                                        adjustedR2 a1 with
                                    | mk a2r abr =>
                                        rw [hr2r] at hδ2
                                        have hrisk3 : ¬ p.entryPrice -
                                            originalStopLossFor env p = 0 :=
                                          fun hh => hrisk (by rw [hh]; simp)
                                        cases abr <;>
                                          simpa [if_neg hrisk3] using hδ2
                                  rw [henv, hrep]
                                  exact List.prefix_append _ _
                · cases hr2 : runStage2Part env caller p
                      (calculateRMultiple p.entryPrice currentPrice
                        (originalStopLossFor env p) p.side) adjustedR2 acc with
                  | mk a2 ab =>
                      cases ab with
                      | false =>
                          exfalso
                          simp [runPosition, hsl, hpr, hcp, hrisk, hth, h1,
                            hr2] at h
                      | true =>
                          have hd2 := runStage2Part_abort_details env caller p
                            (calculateRMultiple p.entryPrice currentPrice
                              (originalStopLossFor env p) p.side) adjustedR2 acc
                            (by rw [hr2])
                          rw [hr2] at hd2
                          dsimp only at hd2
                          have henv : (runPosition env caller p acc).1.details
                              = acc.details := by
                            simp [runPosition, hsl, hpr, hcp, hrisk, hth, h1, hr2]
                            exact hd2
                          rw [henv, hδr]
                          exact List.prefix_append _ _

/-- The repaired environment finishes the whole position loop, and any
aborting run's details are a prefix of the repaired run's details. -/
theorem runPositions_repair (env : ExecEnv) (caller : String)
    (ps : List PosRow) (acc : PassAcc) :
    (runPositions (repairEnv env) caller ps acc).2 = false ∧
    (runPositions env caller ps acc).1.details
      <+: (runPositions (repairEnv env) caller ps acc).1.details := by
  induction ps generalizing acc with
  | nil => exact ⟨rfl, List.prefix_refl _⟩
  | cons p ps ih =>
      have hnoab := runPosition_repaired_no_abort env caller p acc
      cases hrp : runPosition env caller p acc with
      | mk acc1 aborted =>
          cases aborted with
          | false =>
              have heq := runPosition_repair_eq env caller p acc (by rw [hrp])
              rw [hrp] at heq
              have h1 : runPositions env caller (p :: ps) acc
                  = runPositions env caller ps acc1 := by
                simp [runPositions, hrp]
              have h2 : runPositions (repairEnv env) caller (p :: ps) acc
                  = runPositions (repairEnv env) caller ps acc1 := by
                simp [runPositions, heq]
              rw [h1, h2]
              exact ih acc1
          | true =>
              have hpre := runPosition_repair_prefix env caller p acc (by rw [hrp])
              cases hrpr : runPosition (repairEnv env) caller p acc with
              | mk acc1r abr =>
                  have hab : abr = false := by
                    rw [hrpr] at hnoab
                    simpa using hnoab
                  subst hab
                  rw [hrp, hrpr] at hpre
                  dsimp only at hpre
                  have h1 : runPositions env caller (p :: ps) acc
                      = (acc1, true) := by simp [runPositions, hrp]
                  have h2 : runPositions (repairEnv env) caller (p :: ps) acc
                      = runPositions (repairEnv env) caller ps acc1r := by
                    simp [runPositions, hrpr]
                  rw [h1, h2]
                  refine ⟨(ih acc1r).1, ?_⟩
                  obtain ⟨δ, hδ⟩ := runPositions_appends (repairEnv env) caller
                    ps acc1r
                  rw [hδ]
                  exact hpre.trans (List.prefix_append _ _)

/-- C10: `executeCheck` is total over every dependency behavior, including
raising ones, and always returns a `{success, executed, skipped, details}`
record: (a) with all uncaught-failure oracles repaired the pass completes
with `success = true`; (b) the record an aborting run returns carries
exactly the details accumulated up to the abort point — a prefix of the
repaired (non-aborting) run's details; (c) in every run the returned
`executed` and `skipped` counters agree with the accumulated details. -/
theorem executeCheck_never_throws :
    (∀ (env : ExecEnv) (caller : String) (L0 : Locks),
      (executeCheck (repairEnv env) caller L0).1.success = true) ∧
    (∀ (env : ExecEnv) (caller : String) (L0 : Locks),
      (executeCheck env caller L0).1.details
        <+: (executeCheck (repairEnv env) caller L0).1.details) ∧
    (∀ (env : ExecEnv) (caller : String) (L0 : Locks),
      (executeCheck env caller L0).1.executed
          = countSuccess (executeCheck env caller L0).1.details ∧
        (executeCheck env caller L0).1.skipped
          = countSkips (executeCheck env caller L0).1.details) := by
  refine ⟨?_, ?_, ?_⟩
  · intro env caller L0
    cases hq : env.positionsQ with
    | error e => simp [executeCheck, repairEnv, hq]
    | ok ps =>
        cases ps with
        | nil => simp [executeCheck, repairEnv, hq]
        | cons p ps =>
            have hq2 : (repairEnv env).positionsQ = .ok (p :: ps) := by
              simp [repairEnv, hq]
            have hcfg : (repairEnv env).configOk = true := rfl
            have hr := (runPositions_repair env caller (p :: ps)
              { executedCount := 0, skippedCount := 0, details := [],
                locks := L0 }).1
            cases hrr : runPositions (repairEnv env) caller (p :: ps)
                { executedCount := 0, skippedCount := 0, details := [],
                  locks := L0 } with
            | mk accF ab =>
                rw [hrr] at hr
                dsimp only at hr
                subst hr
                simp [executeCheck, hq2, hcfg, hrr]
  · intro env caller L0
    cases hq : env.positionsQ with
    | error e => simp [executeCheck, hq]
    | ok ps =>
        have hq2 : (repairEnv env).positionsQ = .ok ps := by
          simp [repairEnv, hq]
        cases ps with
        | nil => simp [executeCheck, hq, hq2]
        | cons p ps =>
            cases hcfg : env.configOk with
            | false => simp [executeCheck, hq, hcfg]
            | true =>
                have hcfg2 : (repairEnv env).configOk = true := rfl
                have hr := (runPositions_repair env caller (p :: ps)
                  { executedCount := 0, skippedCount := 0, details := [],
                    locks := L0 }).2
                cases hrE : runPositions env caller (p :: ps)
                    { executedCount := 0, skippedCount := 0, details := [],
                      locks := L0 } with
                | mk accE abE =>
                    cases hrR : runPositions (repairEnv env) caller (p :: ps)
                        { executedCount := 0, skippedCount := 0, details := [],
                          locks := L0 } with
                    | mk accR abR =>
                        rw [hrE, hrR] at hr
                        dsimp only at hr
                        simpa [executeCheck, hq, hq2, hcfg, hcfg2, hrE, hrR]
                          using hr
  · intro env caller L0
    cases hq : env.positionsQ with
    | error e => simp [executeCheck, hq, countSuccess, countSkips]
    | ok ps =>
        cases ps with
        | nil => simp [executeCheck, hq, countSuccess, countSkips]
        | cons p ps =>
            cases hcfg : env.configOk with
            | false => simp [executeCheck, hq, hcfg, countSuccess, countSkips]
            | true =>
                have hco := runPositions_coherent env caller (p :: ps)
                  { executedCount := 0, skippedCount := 0, details := [],
                    locks := L0 }
                  (by constructor <;> rfl)
                cases hrE : runPositions env caller (p :: ps)
                    { executedCount := 0, skippedCount := 0, details := [],
                      locks := L0 } with
                | mk accE abE =>
                    rw [hrE] at hco
                    dsimp only at hco
                    simpa [executeCheck, hq, hcfg, hrE] using hco

/-! ### Repair-engine frame and idempotence -/

/-- Non-zero-size orphans are identity steps of the repair fold. -/
theorem foldOrphan_filter_zero (l : List OrphanPos) (s : LocalState) :
    foldRepair fixOrphanPos l s
      = foldRepair fixOrphanPos (l.filter (fun o => o.exchangeSize == 0)) s := by
  induction l generalizing s with
  | nil => rfl
  | cons o l ih =>
      by_cases hz : o.exchangeSize = 0
      · rw [List.filter_cons_of_pos (by simp [hz])]
        simp only [foldRepair]
        rw [ih]
      · rw [List.filter_cons_of_neg (by simp [hz])]
        have hid : fixOrphanPos o s = (s, []) := by simp [fixOrphanPos, hz]
        simp only [foldRepair, hid]
        rw [ih]
        simp

/-- C9: the repair step mutates nothing for warn-only divergences:
dropping every nonzero-mismatch orphan and every missing-position record
from the divergence data leaves the repair's effect — local state and
attempted remote cancellations — unchanged; and on a divergence set
consisting solely of such records the repair is a complete no-op:
no position row deleted, no order status updated, no cancellation
attempted. -/
theorem warn_only_divergences_not_repaired :
    (∀ (data : InconsistentData) (s : LocalState),
      fixInconsistencies data s
        = fixInconsistencies
            { data with
              orphanPositions :=
                data.orphanPositions.filter (fun o => o.exchangeSize == 0)
              missingPositions := [] } s) ∧
    (∀ (data : InconsistentData) (s : LocalState),
      data.orphanPositions.all (fun o => !(o.exchangeSize == 0)) = true →
      data.orphanPriceOrders = [] →
      data.testDataPositions = [] →
      fixInconsistencies data s = (s, [])) := by
  constructor
  · intro data s
    simp only [fixInconsistencies]
    rw [foldOrphan_filter_zero]
  · intro data s hnz hord htest
    have h1 : foldRepair fixOrphanPos data.orphanPositions s = (s, []) := by
      rw [foldOrphan_filter_zero]
      have h2 : data.orphanPositions.filter (fun o => o.exchangeSize == 0) = [] := by
        rw [List.filter_eq_nil_iff]
        intro o ho
        have := List.all_eq_true.mp hnz o ho
        simpa using this
      rw [h2]
      rfl
    simp [fixInconsistencies, h1, hord, htest, foldRepair]

/-- The mismatched-orphan divergence record used as witness input. -/
def mismatchData : InconsistentData :=
  { orphanPositions := [⟨"ETH", "short", 2, 1⟩]
    orphanPriceOrders := []
    testDataPositions := []
    missingPositions := [⟨"SOL", 10⟩] }

/-- A local state with the mismatched position and one active order. -/
def mismatchLocal : LocalState :=
  { positions := [⟨"ETH", "short", 2⟩]
    priceOrders := [⟨"o1", "ETH", "short", "stop_loss", "active"⟩] }

/-- C9 witness: a mismatched orphan (`ETH short`, local 2, remote 1) and a
missing position (`SOL`, size 10) produce no mutation and no cancellation
attempt. -/
theorem warn_only_divergences_not_repaired_witness :
    mismatchData.orphanPositions.all (fun o => !(o.exchangeSize == 0)) = true ∧
    mismatchData.orphanPriceOrders = [] ∧
    mismatchData.testDataPositions = [] ∧
    fixInconsistencies mismatchData mismatchLocal = (mismatchLocal, []) :=
  ⟨by decide, rfl, rfl,
    (warn_only_divergences_not_repaired).2 mismatchData mismatchLocal
      (by decide) rfl rfl⟩

/-- The position pairs the repair deletes: zero-remote-size orphans and
test artifacts. -/
def delPairs (data : InconsistentData) : List (String × String) :=
  (data.orphanPositions.filter (fun o => o.exchangeSize == 0)).map
    (fun o => (o.symbol, o.side)) ++ data.testDataPositions

/-- Order ids of the orphan conditional orders. -/
def orphanIds (data : InconsistentData) : List String :=
  data.orphanPriceOrders.map (·.orderId)

/-- Whether a symbol+side pair is among the deleted pairs. -/
def pairHits (dels : List (String × String)) (sym side : String) : Bool :=
  dels.any (fun q => q.1 == sym && q.2 == side)

/-- Set the status of the orders with the listed ids to `cancelled`. -/
def cancelBy (ids : List String) (o : PriceOrder) : PriceOrder :=
  if ids.contains o.orderId then { o with status := "cancelled" } else o

theorem cancelBy_nil (o : PriceOrder) : cancelBy [] o = o := rfl

theorem cancelBy_id_mem (ids : List String) (o : PriceOrder)
    (h : o.orderId ∈ ids) : cancelBy ids o = { o with status := "cancelled" } := by
  simp [cancelBy, h]

theorem cancelBy_id_not_mem (ids : List String) (o : PriceOrder)
    (h : ¬ o.orderId ∈ ids) : cancelBy ids o = o := by
  simp [cancelBy, h]

theorem cancelBy_cancelBy (ids1 ids2 : List String) (o : PriceOrder) :
    cancelBy ids2 (cancelBy ids1 o) = cancelBy (ids1 ++ ids2) o := by
  by_cases h1 : o.orderId ∈ ids1
  · rw [cancelBy_id_mem _ _ h1,
      cancelBy_id_mem _ _ (List.mem_append_left _ h1)]
    by_cases h2 : o.orderId ∈ ids2
    · rw [cancelBy_id_mem _ _ (show ({ o with status := "cancelled" }
        : PriceOrder).orderId ∈ ids2 from h2)]
    · rw [cancelBy_id_not_mem _ _ (show ¬ ({ o with status := "cancelled" }
        : PriceOrder).orderId ∈ ids2 from h2)]
  · rw [cancelBy_id_not_mem _ _ h1]
    by_cases h2 : o.orderId ∈ ids2
    · rw [cancelBy_id_mem _ _ h2,
        cancelBy_id_mem _ _ (List.mem_append_right _ h2)]
    · rw [cancelBy_id_not_mem _ _ h2, cancelBy_id_not_mem]
      simp [h1, h2]

/-- The id and pair of an order survive a cancel, and its status can only
move to `cancelled`. -/
theorem cancelBy_fields (ids : List String) (o : PriceOrder) :
    (cancelBy ids o).orderId = o.orderId ∧
    (cancelBy ids o).symbol = o.symbol ∧
    (cancelBy ids o).side = o.side ∧
    ((cancelBy ids o).status = o.status ∨ (cancelBy ids o).status = "cancelled") := by
  by_cases h : o.orderId ∈ ids
  · rw [cancelBy_id_mem _ _ h]; simp
  · rw [cancelBy_id_not_mem _ _ h]; simp

theorem setOrderCancelled_eq (oid : String) (s : LocalState) :
    setOrderCancelled oid s
      = { s with priceOrders := s.priceOrders.map (cancelBy [oid]) } := by
  simp only [setOrderCancelled]
  congr 1
  apply List.map_congr_left
  intro o _
  by_cases h : o.orderId = oid
  · simp [cancelBy, h]
  · simp [cancelBy, h]

theorem setFold_closed (ids : List String) (s : LocalState) :
    ids.foldl (fun st oid => setOrderCancelled oid st) s
      = { s with priceOrders := s.priceOrders.map (cancelBy ids) } := by
  induction ids generalizing s with
  | nil =>
      simp only [List.foldl_nil]
      cases s with
      | mk ps os =>
          simp only [LocalState.mk.injEq, true_and]
          rw [show (List.map (cancelBy []) os) = os.map id from
            List.map_congr_left (fun o _ => rfl), List.map_id]
  | cons oid ids ih =>
      simp only [List.foldl_cons]
      rw [ih (setOrderCancelled oid s), setOrderCancelled_eq]
      simp only [LocalState.mk.injEq, true_and]
      rw [List.map_map]
      apply List.map_congr_left
      intro o _
      simp only [Function.comp]
      rw [cancelBy_cancelBy]
      rfl

/-- The ids selected by `cancelRelatedPriceOrders`: active orders of the
pair. -/
def relActiveIds (sym side : String) (s : LocalState) : List String :=
  ((s.priceOrders.filter (fun o =>
    o.symbol = sym && o.side = side && o.status = "active")).map (·.orderId))

theorem cancelRelated_closed (sym side : String) (s : LocalState) :
    cancelRelatedPriceOrders sym side s
      = ({ s with priceOrders :=
            s.priceOrders.map (cancelBy (relActiveIds sym side s)) },
          relActiveIds sym side s) := by
  simp only [cancelRelatedPriceOrders, relActiveIds]
  rw [setFold_closed]

/-- Deletion of one position pair together with cancellation of its related
active orders — the shared body of the zero-size-orphan repair and the
test-data repair. -/
def delStep (pr : String × String) (s : LocalState) : LocalState × List String :=
  let s1 := removePosition pr.1 pr.2 s
  cancelRelatedPriceOrders pr.1 pr.2 s1

theorem fixOrphanPos_eq_delStep (o : OrphanPos) (s : LocalState)
    (h : o.exchangeSize = 0) :
    fixOrphanPos o s = delStep (o.symbol, o.side) s := by
  simp [fixOrphanPos, delStep, h]

theorem fixTestData_eq_delStep (t : String × String) (s : LocalState) :
    fixTestData t s = delStep t s := rfl

theorem delStep_closed (pr : String × String) (s : LocalState) :
    delStep pr s
      = ({ positions := s.positions.filter (fun p =>
            !(p.symbol = pr.1 && p.side = pr.2 : Bool)),
           priceOrders := s.priceOrders.map (cancelBy (relActiveIds pr.1 pr.2 s)) },
          relActiveIds pr.1 pr.2 s) := by
  simp only [delStep, removePosition]
  rw [cancelRelated_closed]
  rfl

theorem pairHits_nil (sym side : String) : pairHits [] sym side = false := rfl

theorem pairHits_cons (pr : String × String) (prs : List (String × String))
    (sym side : String) :
    pairHits (pr :: prs) sym side
      = ((pr.1 == sym && pr.2 == side) || pairHits prs sym side) := by
  simp [pairHits]

/-- Closed form of the delete-and-cancel fold: positions lose exactly the
hit pairs; order statuses move to `cancelled` for a set of ids that covers
every originally active order of a hit pair and stems only from such
orders. -/
theorem foldDel_closed (prs : List (String × String)) (s : LocalState) :
    ∃ ids : List String,
      (foldRepair delStep prs s).1
        = { positions := s.positions.filter
              (fun p => !(pairHits prs p.symbol p.side)),
            priceOrders := s.priceOrders.map (cancelBy ids) } ∧
      (∀ o ∈ s.priceOrders, o.status = "active" →
          pairHits prs o.symbol o.side = true → o.orderId ∈ ids) ∧
      (∀ oid ∈ ids, ∃ o ∈ s.priceOrders, o.orderId = oid ∧
          o.status = "active" ∧ pairHits prs o.symbol o.side = true) := by
  induction prs generalizing s with
  | nil =>
      refine ⟨[], ?_, ?_, ?_⟩
      · simp only [foldRepair]
        cases s with
        | mk ps os =>
            simp only [LocalState.mk.injEq]
            constructor
            · rw [List.filter_eq_self.mpr]
              intro a _
              rfl
            · rw [show (List.map (cancelBy []) os) = os.map id from
                List.map_congr_left (fun o _ => rfl), List.map_id]
      · intro o _ _ habs
        simp [pairHits] at habs
      · intro oid h
        cases h
  | cons pr prs ih =>
      obtain ⟨ids1, hstate, hcover, hsource⟩ := ih (delStep pr s).1
      have hds := delStep_closed pr s
      have hds1 : (delStep pr s).1
          = { positions := s.positions.filter (fun p =>
                !(p.symbol = pr.1 && p.side = pr.2 : Bool)),
              priceOrders :=
                s.priceOrders.map (cancelBy (relActiveIds pr.1 pr.2 s)) } := by
        rw [hds]
      refine ⟨relActiveIds pr.1 pr.2 s ++ ids1, ?_, ?_, ?_⟩
      · have hfold : (foldRepair delStep (pr :: prs) s).1
            = (foldRepair delStep prs (delStep pr s).1).1 := rfl
        rw [hfold, hstate, hds1]
        simp only [LocalState.mk.injEq]
        constructor
        · rw [List.filter_filter]
          apply List.filter_congr
          intro p _
          rw [pairHits_cons]
          by_cases h1 : p.symbol = pr.1
          · by_cases h2 : p.side = pr.2
            · simp [h1, h2]
            · have h2b : ¬ pr.2 = p.side := fun hh => h2 hh.symm
              simp [h1, h2, h2b]
          · have h1b : ¬ pr.1 = p.symbol := fun hh => h1 hh.symm
            simp [h1, h1b]
        · rw [List.map_map]
          apply List.map_congr_left
          intro o _
          simp only [Function.comp]
          rw [cancelBy_cancelBy]
      · intro o ho hact hhits
        rw [pairHits_cons] at hhits
        rcases Bool.or_eq_true_iff.mp hhits with hhit | hhit
        · apply List.mem_append_left
          simp only [relActiveIds]
          refine List.mem_map.mpr ⟨o, List.mem_filter.mpr ⟨ho, ?_⟩, rfl⟩
          have h1 : pr.1 = o.symbol := by simpa using (Bool.and_eq_true_iff.mp hhit).1
          have h2 : pr.2 = o.side := by simpa using (Bool.and_eq_true_iff.mp hhit).2
          simp [h1, h2, hact]
        · by_cases hmem : o.orderId ∈ relActiveIds pr.1 pr.2 s
          · exact List.mem_append_left _ hmem
          · apply List.mem_append_right
            have ho2 : cancelBy (relActiveIds pr.1 pr.2 s) o
                ∈ (delStep pr s).1.priceOrders := by
              rw [hds1]
              exact List.mem_map.mpr ⟨o, ho, rfl⟩
            rw [cancelBy_id_not_mem _ _ hmem] at ho2
            exact hcover o ho2 hact hhit
      · intro oid hmem
        rcases List.mem_append.mp hmem with hmem | hmem
        · simp only [relActiveIds] at hmem
          obtain ⟨o, hof, rfl⟩ := List.mem_map.mp hmem
          obtain ⟨ho, hcond⟩ := List.mem_filter.mp hof
          refine ⟨o, ho, rfl, ?_, ?_⟩
          · simpa using (Bool.and_eq_true_iff.mp hcond).2
          · rw [pairHits_cons]
            apply Bool.or_eq_true_iff.mpr
            left
            have h1 : o.symbol = pr.1 := by
              simpa using (Bool.and_eq_true_iff.mp
                (Bool.and_eq_true_iff.mp hcond).1).1
            have h2 : o.side = pr.2 := by
              simpa using (Bool.and_eq_true_iff.mp
                (Bool.and_eq_true_iff.mp hcond).1).2
            simp [h1, h2]
        · obtain ⟨o2, ho2, hid, hact, hhits⟩ := hsource oid hmem
          rw [hds1] at ho2
          obtain ⟨o, ho, rfl⟩ := List.mem_map.mp ho2
          obtain ⟨hid2, hsym, hside, hstat⟩ :=
            cancelBy_fields (relActiveIds pr.1 pr.2 s) o
          refine ⟨o, ho, by rw [← hid, hid2], ?_, ?_⟩
          · rcases hstat with hstat | hstat
            · rw [← hstat]; exact hact
            · rw [hstat] at hact; exact absurd hact (by decide)
          · rw [pairHits_cons]
            apply Bool.or_eq_true_iff.mpr
            right
            rw [← hsym, ← hside]
            exact hhits

theorem foldOrphan_as_delStep (l : List OrphanPos) (s : LocalState)
    (h : ∀ o ∈ l, o.exchangeSize = 0) :
    foldRepair fixOrphanPos l s
      = foldRepair delStep (l.map (fun o => (o.symbol, o.side))) s := by
  induction l generalizing s with
  | nil => rfl
  | cons o l ih =>
      have h0 := fixOrphanPos_eq_delStep o s (h o (List.mem_cons_self o l))
      simp only [foldRepair, List.map_cons, h0]
      rw [ih _ (fun x hx => h x (List.mem_cons_of_mem o hx))]

theorem foldTest_as_delStep (l : List (String × String)) (s : LocalState) :
    foldRepair fixTestData l s = foldRepair delStep l s := by
  induction l generalizing s with
  | nil => rfl
  | cons t l ih =>
      simp only [foldRepair, fixTestData_eq_delStep]
      rw [ih]

theorem foldOrders_closed (l : List PriceOrder) (s : LocalState) :
    foldRepair
        (fun (o : PriceOrder) st => (setOrderCancelled o.orderId st, [o.orderId]))
        l s
      = ({ s with priceOrders :=
            s.priceOrders.map (cancelBy (l.map (·.orderId))) },
          l.map (·.orderId)) := by
  induction l generalizing s with
  | nil =>
      simp only [foldRepair, List.map_nil, Prod.mk.injEq]
      refine ⟨?_, trivial⟩
      cases s with
      | mk ps os =>
          simp only [LocalState.mk.injEq, true_and]
          rw [show (List.map (cancelBy []) os) = os.map id from
            List.map_congr_left (fun o _ => rfl), List.map_id]
  | cons o l ih =>
      simp only [foldRepair, List.map_cons]
      rw [ih (setOrderCancelled o.orderId s), setOrderCancelled_eq]
      simp only [Prod.mk.injEq]
      constructor
      · simp only [LocalState.mk.injEq, true_and]
        rw [List.map_map]
        apply List.map_congr_left
        intro x _
        simp only [Function.comp]
        rw [cancelBy_cancelBy]
        rfl
      · rfl

theorem pairHits_append (A B : List (String × String)) (sym side : String) :
    pairHits (A ++ B) sym side
      = (pairHits A sym side || pairHits B sym side) := by
  simp [pairHits, List.any_append]

/-- Closed form of the whole repair: positions lose exactly the zero-size
orphan pairs and test-data pairs; order statuses move to `cancelled` for a
set of ids covering every originally active order of a deleted pair and
every orphan conditional order, and stemming only from those. -/
theorem fix_closed (data : InconsistentData) (s : LocalState) :
    ∃ ids : List String,
      (fixInconsistencies data s).1
        = { positions := s.positions.filter
              (fun p => !(pairHits (delPairs data) p.symbol p.side)),
            priceOrders := s.priceOrders.map (cancelBy ids) } ∧
      (∀ o ∈ s.priceOrders, o.status = "active" →
          pairHits (delPairs data) o.symbol o.side = true → o.orderId ∈ ids) ∧
      (∀ oid ∈ orphanIds data, oid ∈ ids) ∧
      (∀ oid ∈ ids, oid ∈ orphanIds data ∨
        ∃ o ∈ s.priceOrders, o.orderId = oid ∧ o.status = "active" ∧
          pairHits (delPairs data) o.symbol o.side = true) := by
  obtain ⟨idsA, hA, coverA, sourceA⟩ := foldDel_closed
    ((data.orphanPositions.filter (fun o => o.exchangeSize == 0)).map
      (fun o => (o.symbol, o.side))) s
  have hr1 : foldRepair fixOrphanPos data.orphanPositions s
      = foldRepair delStep
          ((data.orphanPositions.filter (fun o => o.exchangeSize == 0)).map
            (fun o => (o.symbol, o.side))) s := by
    rw [foldOrphan_filter_zero, foldOrphan_as_delStep]
    intro o ho
    simpa using (List.mem_filter.mp ho).2
  obtain ⟨s1, hs1def⟩ : ∃ s1 : LocalState, s1 = (foldRepair delStep
    ((data.orphanPositions.filter (fun o => o.exchangeSize == 0)).map
      (fun o => (o.symbol, o.side))) s).1 := ⟨_, rfl⟩
  rw [← hs1def] at hA
  have hord := foldOrders_closed data.orphanPriceOrders s1
  obtain ⟨s2, hs2def⟩ : ∃ s2 : LocalState, s2 = { s1 with priceOrders := s1.priceOrders.map (cancelBy (orphanIds data)) } := ⟨_, rfl⟩
  obtain ⟨idsB, hB, coverB, sourceB⟩ := foldDel_closed data.testDataPositions s2
  have hfix : (fixInconsistencies data s).1
      = (foldRepair delStep data.testDataPositions s2).1 := by
    simp only [fixInconsistencies, hr1]
    rw [foldTest_as_delStep]
    have horphans : (foldRepair
        (fun (o : PriceOrder) st => (setOrderCancelled o.orderId st, [o.orderId]))
        data.orphanPriceOrders s1).1 = s2 := by
      rw [hord]
      exact hs2def.symm
    rw [← hs1def, horphans]
  have hposA : s1.positions = s.positions.filter
      (fun p => !(pairHits ((data.orphanPositions.filter
        (fun o => o.exchangeSize == 0)).map (fun o => (o.symbol, o.side)))
        p.symbol p.side)) := by
    rw [hA]
  have hordA : s1.priceOrders = s.priceOrders.map (cancelBy idsA) := by
    rw [hA]
  have hpos2 : s2.positions = s1.positions := by rw [hs2def]
  have hord2 : s2.priceOrders = s1.priceOrders.map (cancelBy (orphanIds data)) := by
    rw [hs2def]
  refine ⟨idsA ++ (orphanIds data ++ idsB), ?_, ?_, ?_, ?_⟩
  · rw [hfix, hB]
    simp only [LocalState.mk.injEq]
    constructor
    · rw [hpos2, hposA, List.filter_filter]
      apply List.filter_congr
      intro p _
      simp only [delPairs, pairHits_append]
      cases pairHits ((data.orphanPositions.filter
          (fun o => o.exchangeSize == 0)).map (fun o => (o.symbol, o.side)))
          p.symbol p.side <;>
        cases pairHits data.testDataPositions p.symbol p.side <;> rfl
    · rw [hord2, hordA, List.map_map, List.map_map]
      apply List.map_congr_left
      intro o _
      simp only [Function.comp]
      simp [cancelBy_cancelBy, List.append_assoc]
  · intro o ho hact hhits
    simp only [delPairs, pairHits_append, Bool.or_eq_true_iff] at hhits
    rcases hhits with hhit | hhit
    · exact List.mem_append_left _ (coverA o ho hact hhit)
    · by_cases hmemA : o.orderId ∈ idsA
      · exact List.mem_append_left _ hmemA
      · apply List.mem_append_right
        by_cases hmemO : o.orderId ∈ orphanIds data
        · exact List.mem_append_left _ hmemO
        · apply List.mem_append_right
          have ho1 : o ∈ s1.priceOrders := by
            rw [hordA]
            have hm : cancelBy idsA o ∈ s.priceOrders.map (cancelBy idsA) :=
              List.mem_map.mpr ⟨o, ho, rfl⟩
            rwa [cancelBy_id_not_mem _ _ hmemA] at hm
          have ho2 : o ∈ s2.priceOrders := by
            rw [hord2]
            have hm : cancelBy (orphanIds data) o
                ∈ s1.priceOrders.map (cancelBy (orphanIds data)) :=
              List.mem_map.mpr ⟨o, ho1, rfl⟩
            rwa [cancelBy_id_not_mem _ _ hmemO] at hm
          exact coverB o ho2 hact hhit
  · intro oid hmem
    exact List.mem_append_right _ (List.mem_append_left _ hmem)
  · intro oid hmem
    rcases List.mem_append.mp hmem with hmem | hmem
    · obtain ⟨o, ho, hid, hact, hhit⟩ := sourceA oid hmem
      refine Or.inr ⟨o, ho, hid, hact, ?_⟩
      simp only [delPairs, pairHits_append, Bool.or_eq_true_iff]
      exact Or.inl hhit
    · rcases List.mem_append.mp hmem with hmem | hmem
      · exact Or.inl hmem
      · obtain ⟨o2, ho2, hid, hact, hhit⟩ := sourceB oid hmem
        rw [hord2] at ho2
        obtain ⟨o1, ho1, rfl⟩ := List.mem_map.mp ho2
        obtain ⟨hid1, hsym1, hside1, hstat1⟩ :=
          cancelBy_fields (orphanIds data) o1
        have hact1 : o1.status = "active" := by
          rcases hstat1 with hs | hs
          · rw [← hs]; exact hact
          · rw [hs] at hact; exact absurd hact (by decide)
        rw [hordA] at ho1
        obtain ⟨o0, ho0, rfl⟩ := List.mem_map.mp ho1
        obtain ⟨hid0, hsym0, hside0, hstat0⟩ := cancelBy_fields idsA o0
        have hact0 : o0.status = "active" := by
          rcases hstat0 with hs | hs
          · rw [← hs]; exact hact1
          · rw [hs] at hact1; exact absurd hact1 (by decide)
        refine Or.inr ⟨o0, ho0, ?_, hact0, ?_⟩
        · rw [← hid, hid1, hid0]
        · simp only [delPairs, pairHits_append, Bool.or_eq_true_iff]
          right
          rw [hsym1, hside1, hsym0, hside0] at hhit
          exact hhit

theorem pairHits_of_mem (l : List (String × String)) (sym side : String)
    (h : (sym, side) ∈ l) : pairHits l sym side = true := by
  simp only [pairHits, List.any_eq_true]
  exact ⟨(sym, side), h, by simp⟩

/-- Running the repair twice on the same divergence data yields the same
local state as running it once. -/
theorem fix_idem (data : InconsistentData) (s : LocalState) :
    (fixInconsistencies data (fixInconsistencies data s).1).1
      = (fixInconsistencies data s).1 := by
  obtain ⟨ids1, hst1, hcov1, horph1, hsrc1⟩ := fix_closed data s
  obtain ⟨ids2, hst2, hcov2, horph2, hsrc2⟩ :=
    fix_closed data (fixInconsistencies data s).1
  rw [hst2]
  conv_rhs => rw [hst1]
  rw [hst1]
  simp only [LocalState.mk.injEq]
  constructor
  · rw [List.filter_filter]
    apply List.filter_congr
    intro p _
    cases pairHits (delPairs data) p.symbol p.side <;> rfl
  · rw [List.map_map]
    apply List.map_congr_left
    intro o ho
    simp only [Function.comp]
    by_cases h2 : o.orderId ∈ ids2
    · rcases hsrc2 o.orderId h2 with horp | ⟨o1, ho1, hoid, hact, hhit⟩
      · have h1 : o.orderId ∈ ids1 := horph1 _ horp
        rw [cancelBy_id_mem _ _ h1]
        rw [cancelBy_id_mem _ _ (show ({ o with status := "cancelled" }
          : PriceOrder).orderId ∈ ids2 from h2)]
      · exfalso
        rw [hst1] at ho1
        simp only at ho1
        obtain ⟨o0, ho0, rfl⟩ := List.mem_map.mp ho1
        obtain ⟨hid0, hsym0, hside0, hstat0⟩ := cancelBy_fields ids1 o0
        have hact0 : o0.status = "active" := by
          rcases hstat0 with hs | hs
          · rw [← hs]; exact hact
          · rw [hs] at hact; exact absurd hact (by decide)
        rw [hsym0, hside0] at hhit
        have hin : o0.orderId ∈ ids1 := hcov1 o0 ho0 hact0 hhit
        rw [cancelBy_id_mem _ _ hin] at hact
        simp at hact
    · have hid : (cancelBy ids1 o).orderId = o.orderId :=
        (cancelBy_fields ids1 o).1
      rw [cancelBy_id_not_mem]
      rw [hid]
      exact h2

/-- After one repair, re-classification finds no test-data positions, no
orphan conditional orders, and no zero-remote-size orphan positions; only
warn-only divergences can remain. -/
theorem recheck_after_fix (normalize : String → String)
    (remote : List RemotePos) (s : LocalState) :
    (checkConsistency normalize remote
        (fixInconsistencies (checkConsistency normalize remote s) s).1).testDataPositions
        = [] ∧
    (checkConsistency normalize remote
        (fixInconsistencies (checkConsistency normalize remote s) s).1).orphanPriceOrders
        = [] ∧
    ((checkConsistency normalize remote
        (fixInconsistencies (checkConsistency normalize remote s) s).1).orphanPositions.all
          (fun o => !(o.exchangeSize == 0)) = true) := by
  obtain ⟨ids, hst, hcov, horph, hsrc⟩ :=
    fix_closed (checkConsistency normalize remote s) s
  obtain ⟨s1, hs1⟩ : ∃ s1 : LocalState,
      s1 = (fixInconsistencies (checkConsistency normalize remote s) s).1 := ⟨_, rfl⟩
  rw [← hs1]
  have hpos2 : ∀ p, p ∈ s1.positions →
      p ∈ s.positions ∧
        pairHits (delPairs (checkConsistency normalize remote s)) p.symbol p.side
          = false := by
    intro p hp
    rw [hs1, hst] at hp
    simp only at hp
    have hm := List.mem_filter.mp hp
    exact ⟨hm.1, by simpa using hm.2⟩
  refine ⟨?_, ?_, ?_⟩
  · -- no test data survives
    simp only [checkConsistency]
    rw [List.filterMap_eq_nil_iff]
    intro p hp
    obtain ⟨hps, hnohit⟩ := hpos2 p hp
    cases hcl : classifyPos normalize remote p with
    | none => rfl
    | some c =>
        cases c with
        | testData =>
            exfalso
            have hmem : (p.symbol, p.side)
                ∈ (checkConsistency normalize remote s).testDataPositions := by
              simp only [checkConsistency]
              exact List.mem_filterMap.mpr ⟨p, hps, by rw [hcl]⟩
            have hmem2 : (p.symbol, p.side)
                ∈ delPairs (checkConsistency normalize remote s) := by
              simp only [delPairs]
              exact List.mem_append_right _ hmem
            rw [pairHits_of_mem _ _ _ hmem2] at hnohit
            cases hnohit
        | orphan dbSize exchangeSize => rfl
  · -- no orphan conditional order survives
    simp only [checkConsistency]
    rw [List.filter_eq_nil_iff]
    intro o2 ho2
    rw [hs1, hst] at ho2
    simp only at ho2
    obtain ⟨o, ho, rfl⟩ := List.mem_map.mp ho2
    intro hsel
    rw [Bool.and_eq_true_iff] at hsel
    obtain ⟨hact2, hnopos⟩ := hsel
    by_cases hmem : o.orderId ∈ ids
    · rw [cancelBy_id_mem _ _ hmem] at hact2
      simp at hact2
    · rw [cancelBy_id_not_mem _ _ hmem] at hact2 hnopos
      have hact : o.status = "active" := by simpa using hact2
      by_cases hpos : ∃ p ∈ s.positions, p.symbol = o.symbol ∧ p.side = o.side
      · obtain ⟨p, hps, hpsym, hpside⟩ := hpos
        by_cases hhit : pairHits (delPairs (checkConsistency normalize remote s))
            p.symbol p.side = true
        · rw [hpsym, hpside] at hhit
          exact absurd (hcov o ho hact hhit) hmem
        · -- p survives into the repaired state, so the order is not orphan
          have hsurv : p ∈ s1.positions := by
            rw [hs1, hst]
            simp only
            refine List.mem_filter.mpr ⟨hps, ?_⟩
            simp [Bool.not_eq_true] at hhit
            simp [hhit]
          have hfalse : ∀ x ∈ s1.positions, x.symbol = o.symbol → ¬x.side = o.side := by
            simpa using hnopos
          exact hfalse p hsurv hpsym hpside
      · -- the order was an orphan already in the first pass
        have hmem2 : o ∈ (checkConsistency normalize remote s).orphanPriceOrders := by
          simp only [checkConsistency]
          refine List.mem_filter.mpr ⟨ho, ?_⟩
          rw [Bool.and_eq_true_iff]
          refine ⟨by simp [hact], ?_⟩
          simp only [Bool.not_eq_eq_eq_not, Bool.not_true, List.any_eq_false]
          intro p hps
          by_contra hc
          rw [Bool.and_eq_true] at hc
          exact hpos ⟨p, hps, by simpa using hc.1, by simpa using hc.2⟩
        have : o.orderId ∈ orphanIds (checkConsistency normalize remote s) :=
          List.mem_map.mpr ⟨o, hmem2, rfl⟩
        exact hmem (horph _ this)
  · -- every surviving orphan classification has nonzero remote size
    rw [List.all_eq_true]
    intro o ho
    simp only [checkConsistency] at ho
    obtain ⟨p, hp, hcl⟩ := List.mem_filterMap.mp ho
    obtain ⟨hps, hnohit⟩ := hpos2 p hp
    cases hclv : classifyPos normalize remote p with
    | none => rw [hclv] at hcl; cases hcl
    | some c =>
        cases c with
        | testData => rw [hclv] at hcl; cases hcl
        | orphan dbSize exchangeSize =>
            rw [hclv] at hcl
            simp only [Option.some.injEq] at hcl
            by_contra hzero
            rw [Bool.not_eq_true, Bool.not_eq_false'] at hzero
            have hz : o.exchangeSize = 0 := by simpa using hzero
            have hmem : (p.symbol, p.side) ∈ delPairs
                (checkConsistency normalize remote s) := by
              simp only [delPairs]
              apply List.mem_append_left
              refine List.mem_map.mpr ⟨⟨p.symbol, p.side, dbSize, exchangeSize⟩, ?_, rfl⟩
              refine List.mem_filter.mpr ⟨?_, ?_⟩
              · simp only [checkConsistency]
                exact List.mem_filterMap.mpr ⟨p, hps, by rw [hclv]⟩
              · have : exchangeSize = 0 := by
                  have h1 : o.exchangeSize = exchangeSize := by rw [← hcl]
                  rw [← h1, hz]
                simp [this]
            rw [pairHits_of_mem _ _ _ hmem] at hnohit
            cases hnohit

/-- C8: Running the repair (`fixInconsistencies`) twice in a row on the same
divergence set produces the same end state as running it once, and a
re-classification pass after the first repair finds none of the
auto-repaired divergence kinds: no test-data positions, no orphan
conditional orders, and no orphan positions with zero remote size.
(Warn-only divergences — nonzero size mismatches and missing positions —
are not repaired and can be found again, so "zero divergences" does not
hold in general; see the counterexample.) -/
theorem repair_idempotent (data : InconsistentData)
    (normalize : String → String) (remote : List RemotePos) (s : LocalState) :
    (fixInconsistencies data (fixInconsistencies data s).1).1
        = (fixInconsistencies data s).1 ∧
    (checkConsistency normalize remote
        (fixInconsistencies (checkConsistency normalize remote s) s).1).testDataPositions
        = [] ∧
    (checkConsistency normalize remote
        (fixInconsistencies (checkConsistency normalize remote s) s).1).orphanPriceOrders
        = [] ∧
    ((checkConsistency normalize remote
        (fixInconsistencies (checkConsistency normalize remote s) s).1).orphanPositions.all
          (fun o => !(o.exchangeSize == 0)) = true) :=
  ⟨fix_idem data s, recheck_after_fix normalize remote s⟩

/-- A remote snapshot holding 1 ETHUSDT against a local record of 2: a
nonzero size mismatch, which the repair step only warns about. -/
def mismatchRemoteC8 : List RemotePos := [⟨"ETHUSDT", 1⟩]

/-- The local state with the mismatched position. -/
def mismatchStateC8 : LocalState := ⟨[⟨"ETHUSDT", "short", 2⟩], []⟩

/-- C8 counterexample: the claim's "second run finds zero divergences" is
false. A position whose remote size is nonzero but differs from the local
quantity by more than 0.0001 is classified an orphan on every pass, yet the
repair step leaves it untouched (warn-only), so the re-classification after
the repair still reports inconsistencies. -/
theorem repair_rerun_counterexample :
    hasInconsistencies (checkConsistency id mismatchRemoteC8 mismatchStateC8)
        = true ∧
    hasInconsistencies (checkConsistency id mismatchRemoteC8
        (fixInconsistencies (checkConsistency id mismatchRemoteC8 mismatchStateC8)
          mismatchStateC8).1) = true :=
  ⟨of_decide_eq_true (by with_unfolding_all rfl),
   of_decide_eq_true (by with_unfolding_all rfl)⟩

end AutoTrading
